import Mathlib

/-!
Shallow embedding of the `cache` package.

This file embeds the three replacement policies of the repository's `cache`
package and proves the specification claims about them:

* `LRU` — the bounded least-recently-used container of `src/cache/lru.go`.
  Go keeps a doubly linked `evictList` (most-recently-used at the front)
  plus a map from key to list element, in exact 1:1 correspondence.  The
  embedding keeps just the recency-ordered list of `(key, value)` entries,
  most-recently-used first; the map lookup is `findEntry`.
* `TwoQueueCache` — `src/cache/two_queue.go`.
* `ARCCache` — `src/cache/arc.go`.

Keys are Go `uint64`.  They are only ever compared for equality (map keys),
never used arithmetically, so they are embedded as `Nat`.  Values are Go
`any`; `none` embeds Go `nil` (the value stored for ghost entries) and
`some n` embeds a caller payload.
-/

abbrev Key := Nat

abbrev Val := Option Nat

/-- Go map lookup `c.items[key]`: the unique entry of the recency list whose
key is `k` (first match; the operations never create duplicate keys). -/
def findEntry (k : Key) : List (Key × Val) → Option (Key × Val)
  | [] => none
  | e :: l => if e.1 = k then some e else findEntry k l

/-- Go `c.evictList.Remove(ele)` for the element the map points at: remove
the first entry with key `k` from the recency list. -/
def eraseKey (k : Key) : List (Key × Val) → List (Key × Val)
  | [] => []
  | e :: l => if e.1 = k then l else e :: eraseKey k l

/-- The keys of the recency list are pairwise distinct (the Go map and list
are in 1:1 correspondence, so this holds in every reachable state). -/
def keysNodup (l : List (Key × Val)) : Prop := (l.map Prod.fst).Nodup

instance (l : List (Key × Val)) : Decidable (keysNodup l) := by
  unfold keysNodup
  infer_instance

/-- The bounded LRU container of `src/cache/lru.go`: a fixed capacity and a
recency-ordered entry list, most-recently-used first (`evictList` front). -/
structure LRU where
  size : Nat
  entries : List (Key × Val)
deriving DecidableEq

/-- Go `func (c *LRU) Len() int` — `c.evictList.Len()`. -/
def LRU.Len (c : LRU) : Nat := c.entries.length

/-- Go `func (c *LRU) contains(key uint64) bool` — map membership. -/
def LRU.contains (c : LRU) (k : Key) : Bool := (findEntry k c.entries).isSome

/-- Go `func (c *LRU) Get(key uint64) (any, bool)` — on a hit, `MoveToFront`
of the element and its value; on a miss, `(nil, false)`. -/
def LRU.Get (c : LRU) (k : Key) : Option Val × LRU :=
  match findEntry k c.entries with
  | some e => (some e.2, ⟨c.size, e :: eraseKey k c.entries⟩)
  | none => (none, c)

/-- Go `func (c *LRU) Put(key uint64, value any)` — update-and-refresh when the
key exists; otherwise `PushFront` and, if the length now exceeds the
capacity, `removeOldest` exactly once. -/
def LRU.Put (c : LRU) (k : Key) (v : Val) : LRU :=
  if c.contains k then
    ⟨c.size, (k, v) :: eraseKey k c.entries⟩
  else
    if c.entries.length + 1 > c.size then
      ⟨c.size, ((k, v) :: c.entries).dropLast⟩
    else
      ⟨c.size, (k, v) :: c.entries⟩

/-- Go `func (c *LRU) Peek(key uint64) (any, bool)` — lookup without reorder. -/
def LRU.Peek (c : LRU) (k : Key) : Option Val :=
  (findEntry k c.entries).map Prod.snd

/-- Go `func (c *LRU) removeIfExist(key uint64) bool` — delete if present,
report whether the key existed. -/
def LRU.removeIfExist (c : LRU) (k : Key) : Bool × LRU :=
  if c.contains k then (true, ⟨c.size, eraseKey k c.entries⟩) else (false, c)

/-- Go `func (c *LRU) Remove(key uint64)` — delegates to `removeIfExist`. -/
def LRU.Remove (c : LRU) (k : Key) : LRU := (c.removeIfExist k).2

/-- Go `func (c *LRU) Purge()` — drop every entry, keep the capacity. -/
def LRU.Purge (c : LRU) : LRU := ⟨c.size, []⟩

/-- Go `func (c *LRU) Items() []*Item` — front-to-back snapshot (clones). -/
def LRU.Items (c : LRU) : List (Key × Val) := c.entries

/-- Go `func (c *LRU) removeOldest()` — drop the back (least recent) element. -/
def LRU.removeOldest (c : LRU) : LRU := ⟨c.size, c.entries.dropLast⟩

/-- Go `func (c *LRU) getAndRemoveOldest() (uint64, any, bool)` — drop the back
element and return it, or `(0, nil, false)` when empty. -/
def LRU.getAndRemoveOldest (c : LRU) : Option (Key × Val) × LRU :=
  match c.entries.getLast? with
  | some e => (some e, ⟨c.size, c.entries.dropLast⟩)
  | none => (none, c)

/-- Go `func NewLRU(size int) (*LRU, error)` — fails exactly on `size <= 0`. -/
def NewLRU (size : Int) : Option LRU :=
  if size ≤ 0 then none else some ⟨size.toNat, []⟩

/-- One public cache operation.  `items` and `len` are the (state-preserving)
snapshot and count operations; `peek` never mutates either. -/
inductive CacheOp where
  | get : Key → CacheOp
  | put : Key → Val → CacheOp
  | peek : Key → CacheOp
  | remove : Key → CacheOp
  | purge : CacheOp
  | items : CacheOp
  | len : CacheOp
deriving DecidableEq

/-- The state transition of one public `LRU` operation. -/
def stepLRU (c : LRU) : CacheOp → LRU
  | .get k => (c.Get k).2
  | .put k v => c.Put k v
  | .peek _ => c
  | .remove k => c.Remove k
  | .purge => c.Purge
  | .items => c
  | .len => c

/-- Run a sequence of public operations on an `LRU`. -/
def runLRU (c : LRU) (ops : List CacheOp) : LRU := ops.foldl stepLRU c

/-- Go `int(float64(size) * ratio)` for a ratio given as an exact rational:
truncate `size * ratio` toward zero.  (Go computes in `float64`; for the
default ratios `1/4` and `1/2` the float computation is exact, so this
agrees with the source wherever the claims evaluate it.) -/
def goScale (size : Int) (q : ℚ) : Int := Int.tdiv (size * q.num) (q.den : Int)

/-- Go `defaultRecentRatio = 0.25` of `src/cache/two_queue.go` (exact). -/
def defaultRecentRat : ℚ := mkRat 1 4

/-- Go `defaultGhostRatio = 0.50` of `src/cache/two_queue.go` (exact). -/
def defaultGhostRat : ℚ := mkRat 1 2

/-- The 2Q cache of `src/cache/two_queue.go`: total `size`, target
`recentSize`, and the three owned LRU containers (`evict` is the ghost
list, as in the source). -/
structure TwoQueueCache where
  size : Nat
  recentSize : Nat
  recent : LRU
  frequent : LRU
  evict : LRU
deriving DecidableEq

/-- Go `func newTowQueueParams(size int, recentRatio, ghostRatio float64)` —
guards, derived sub-capacities, and the three `NewLRU` calls (the third one
fails when the computed ghost capacity is not positive). -/
def newTowQueueParams (size : Int) (recentRat ghostRat : ℚ) : Option TwoQueueCache :=
  if size ≤ 0 then none
  else if recentRat < 0 ∨ 1 < recentRat then none
  else if ghostRat < 0 ∨ 1 < ghostRat then none
  else
    match NewLRU size, NewLRU size, NewLRU (goScale size ghostRat) with
    | some r, some f, some e =>
        some ⟨size.toNat, (goScale size recentRat).toNat, r, f, e⟩
    | _, _, _ => none

/-- Go `func NewTwoQueueCache(size int)` — the public constructor, using the
default ratios `0.25` and `0.50`. -/
def NewTwoQueueCache (size : Int) : Option TwoQueueCache :=
  newTowQueueParams size defaultRecentRat defaultGhostRat

/-- Go `func (c *TwoQueueCache) Len() int`. -/
def TwoQueueCache.Len (c : TwoQueueCache) : Nat := c.recent.Len + c.frequent.Len

/-- Go `func (c *TwoQueueCache) ensureSpace(recentEvict bool)`. -/
def TwoQueueCache.ensureSpace (c : TwoQueueCache) (recentEvict : Bool) : TwoQueueCache :=
  if c.recent.Len + c.frequent.Len < c.size then c
  else if 0 < c.recent.Len ∧
      (c.recentSize < c.recent.Len ∨ (c.recent.Len = c.recentSize ∧ recentEvict = false)) then
    match c.recent.getAndRemoveOldest with
    | (some e, r) => { c with recent := r, evict := c.evict.Put e.1 none }
    | (none, r) => { c with recent := r, evict := c.evict.Put 0 none }
  else
    { c with frequent := c.frequent.removeOldest }

/-- Go `func (c *TwoQueueCache) Get(key uint64) (any, bool)`. -/
def TwoQueueCache.Get (c : TwoQueueCache) (k : Key) : Option Val × TwoQueueCache :=
  match c.frequent.Get k with
  | (some v, f) => (some v, { c with frequent := f })
  | (none, _) =>
    match c.recent.Peek k with
    | some v =>
        (some v, { c with recent := (c.recent.removeIfExist k).2,
                          frequent := c.frequent.Put k v })
    | none => (none, c)

/-- Go `func (c *TwoQueueCache) Put(key uint64, value any)`. -/
def TwoQueueCache.Put (c : TwoQueueCache) (k : Key) (v : Val) : TwoQueueCache :=
  if c.frequent.contains k then
    { c with frequent := c.frequent.Put k v }
  else if c.recent.contains k then
    { c with recent := (c.recent.removeIfExist k).2, frequent := c.frequent.Put k v }
  else if c.evict.contains k then
    let c1 := c.ensureSpace true
    { c1 with evict := (c1.evict.removeIfExist k).2, frequent := c1.frequent.Put k v }
  else
    let c1 := c.ensureSpace false
    { c1 with recent := c1.recent.Put k v }

/-- Go `func (c *TwoQueueCache) Peek(key uint64) (any, bool)`. -/
def TwoQueueCache.Peek (c : TwoQueueCache) (k : Key) : Option Val :=
  match c.frequent.Peek k with
  | some v => some v
  | none => c.recent.Peek k

/-- Go `func (c *TwoQueueCache) Remove(key uint64)` — first match wins. -/
def TwoQueueCache.Remove (c : TwoQueueCache) (k : Key) : TwoQueueCache :=
  if c.frequent.contains k then { c with frequent := (c.frequent.removeIfExist k).2 }
  else if c.recent.contains k then { c with recent := (c.recent.removeIfExist k).2 }
  else if c.evict.contains k then { c with evict := (c.evict.removeIfExist k).2 }
  else c

/-- Go `func (c *TwoQueueCache) Purge()`. -/
def TwoQueueCache.Purge (c : TwoQueueCache) : TwoQueueCache :=
  { c with recent := c.recent.Purge, frequent := c.frequent.Purge, evict := c.evict.Purge }

/-- Go `func (c *TwoQueueCache) Items() []*Item` — recent then frequent. -/
def TwoQueueCache.Items (c : TwoQueueCache) : List (Key × Val) :=
  c.recent.Items ++ c.frequent.Items

/-- Membership in the cache proper (`recent` or `frequent`; ghost entries
are metadata and are not part of the cached contents). -/
def TwoQueueCache.cached (c : TwoQueueCache) (k : Key) : Bool :=
  c.recent.contains k || c.frequent.contains k

/-- The state transition of one public `TwoQueueCache` operation. -/
def step2Q (c : TwoQueueCache) : CacheOp → TwoQueueCache
  | .get k => (c.Get k).2
  | .put k v => c.Put k v
  | .peek _ => c
  | .remove k => c.Remove k
  | .purge => c.Purge
  | .items => c
  | .len => c

/-- Run a sequence of public operations on a `TwoQueueCache`. -/
def run2Q (c : TwoQueueCache) (ops : List CacheOp) : TwoQueueCache := ops.foldl step2Q c

/-- The ARC cache of `src/cache/arc.go`: total `size`, adaptation target
`p` (a Go `int`, embedded as `Int`), and the four owned LRU containers. -/
structure ARCCache where
  size : Nat
  p : Int
  t1 : LRU
  b1 : LRU
  t2 : LRU
  b2 : LRU
deriving DecidableEq

/-- Go `func NewARC(size int) (*ARCCache, error)` — four `NewLRU(size)` calls. -/
def NewARC (size : Int) : Option ARCCache :=
  match NewLRU size, NewLRU size, NewLRU size, NewLRU size with
  | some t1, some b1, some t2, some b2 => some ⟨size.toNat, 0, t1, b1, t2, b2⟩
  | _, _, _, _ => none

/-- Go `func (c *ARCCache) Len() int`. -/
def ARCCache.Len (c : ARCCache) : Nat := c.t1.Len + c.t2.Len

/-- Go `func (c *ARCCache) replace(b2ContainsKey bool)` — evict from `T1` into
`B1` when `len(T1) > 0 && (len(T1) > p || (len(T1) == p && b2ContainsKey))`,
otherwise from `T2` into `B2`; a ghost entry records only the key. -/
def ARCCache.replace (c : ARCCache) (b2ContainsKey : Bool) : ARCCache :=
  if 0 < c.t1.Len ∧ (c.p < (c.t1.Len : Int) ∨ ((c.t1.Len : Int) = c.p ∧ b2ContainsKey = true)) then
    match c.t1.getAndRemoveOldest with
    | (some e, t1) => { c with t1 := t1, b1 := c.b1.Put e.1 none }
    | (none, t1) => { c with t1 := t1 }
  else
    match c.t2.getAndRemoveOldest with
    | (some e, t2) => { c with t2 := t2, b2 := c.b2.Put e.1 none }
    | (none, t2) => { c with t2 := t2 }

/-- Go `func (c *ARCCache) Get(key uint64) (any, bool)` — promote a `T1` hit
into `T2`, refresh a `T2` hit, otherwise miss. -/
def ARCCache.Get (c : ARCCache) (k : Key) : Option Val × ARCCache :=
  match c.t1.Peek k with
  | some v => (some v, { c with t1 := (c.t1.removeIfExist k).2, t2 := c.t2.Put k v })
  | none =>
    match c.t2.Get k with
    | (some v, t2) => (some v, { c with t2 := t2 })
    | (none, _) => (none, c)

/-- Go `func (c *ARCCache) Put(key uint64, value any)` — the five mutually
exclusive cases of the source, in order: hit in `T1`, hit in `T2`, ghost
hit in `B1` (grow `p`), ghost hit in `B2` (shrink `p`), brand-new key.
Go's `b2Len / b1Len` (resp. `b1Len / b2Len`) is executed only under the
guard `b2Len > b1Len` (resp. `b1Len > b2Len`); it is embedded as `Nat`
division, which agrees with Go wherever the divisor is non-zero
(`ARCCache.putChecked` models the division-by-zero panic explicitly). -/
def ARCCache.Put (c : ARCCache) (k : Key) (v : Val) : ARCCache :=
  if c.t1.contains k then
    { c with t1 := (c.t1.removeIfExist k).2, t2 := c.t2.Put k v }
  else if c.t2.contains k then
    { c with t2 := c.t2.Put k v }
  else if c.b1.contains k then
    let delta : Nat := if c.b1.Len < c.b2.Len then c.b2.Len / c.b1.Len else 1
    let c1 : ARCCache :=
      { c with p := if (c.size : Int) ≤ c.p + (delta : Int) then (c.size : Int) else c.p + (delta : Int) }
    let c2 := if c1.size ≤ c1.t1.Len + c1.t2.Len then c1.replace false else c1
    { c2 with b1 := (c2.b1.removeIfExist k).2, t2 := c2.t2.Put k v }
  else if c.b2.contains k then
    let delta : Nat := if c.b2.Len < c.b1.Len then c.b1.Len / c.b2.Len else 1
    let c1 : ARCCache :=
      { c with p := if c.p ≤ (delta : Int) then 0 else c.p - (delta : Int) }
    let c2 := if c1.size ≤ c1.t1.Len + c1.t2.Len then c1.replace true else c1
    { c2 with b2 := (c2.b2.removeIfExist k).2, t2 := c2.t2.Put k v }
  else
    let c1 := if c.size ≤ c.t1.Len + c.t2.Len then c.replace false else c
    let c2 := if (c1.size : Int) - c1.p < (c1.b1.Len : Int) then { c1 with b1 := c1.b1.removeOldest } else c1
    let c3 := if c2.p < (c2.b2.Len : Int) then { c2 with b2 := c2.b2.removeOldest } else c2
    { c3 with t1 := c3.t1.Put k v }

/-- Go integer division, made explicitly fallible: `none` exactly when the
divisor is zero (where the Go program would panic). -/
def goDiv (a b : Nat) : Option Nat := if b = 0 then none else some (a / b)

/-- Model of `ARCCache.Put` with the two integer divisions of the source made
explicitly fallible via `goDiv`: `none` exactly on the executions where the
Go code would abort with a division-by-zero panic. -/
def ARCCache.putChecked (c : ARCCache) (k : Key) (v : Val) : Option ARCCache :=
  if c.t1.contains k then
    some { c with t1 := (c.t1.removeIfExist k).2, t2 := c.t2.Put k v }
  else if c.t2.contains k then
    some { c with t2 := c.t2.Put k v }
  else if c.b1.contains k then
    match (if c.b1.Len < c.b2.Len then goDiv c.b2.Len c.b1.Len else some 1) with
    | none => none
    | some delta =>
      let c1 : ARCCache :=
        { c with p := if (c.size : Int) ≤ c.p + (delta : Int) then (c.size : Int) else c.p + (delta : Int) }
      let c2 := if c1.size ≤ c1.t1.Len + c1.t2.Len then c1.replace false else c1
      some { c2 with b1 := (c2.b1.removeIfExist k).2, t2 := c2.t2.Put k v }
  else if c.b2.contains k then
    match (if c.b2.Len < c.b1.Len then goDiv c.b1.Len c.b2.Len else some 1) with
    | none => none
    | some delta =>
      let c1 : ARCCache :=
        { c with p := if c.p ≤ (delta : Int) then 0 else c.p - (delta : Int) }
      let c2 := if c1.size ≤ c1.t1.Len + c1.t2.Len then c1.replace true else c1
      some { c2 with b2 := (c2.b2.removeIfExist k).2, t2 := c2.t2.Put k v }
  else
    let c1 := if c.size ≤ c.t1.Len + c.t2.Len then c.replace false else c
    let c2 := if (c1.size : Int) - c1.p < (c1.b1.Len : Int) then { c1 with b1 := c1.b1.removeOldest } else c1
    let c3 := if c2.p < (c2.b2.Len : Int) then { c2 with b2 := c2.b2.removeOldest } else c2
    some { c3 with t1 := c3.t1.Put k v }

/-- Go `func (c *ARCCache) Peek(key uint64) (any, bool)` — `T1` then `T2`. -/
def ARCCache.Peek (c : ARCCache) (k : Key) : Option Val :=
  match c.t1.Peek k with
  | some v => some v
  | none => c.t2.Peek k

/-- Go `func (c *ARCCache) Remove(key uint64)` — first match wins. -/
def ARCCache.Remove (c : ARCCache) (k : Key) : ARCCache :=
  if c.t1.contains k then { c with t1 := (c.t1.removeIfExist k).2 }
  else if c.t2.contains k then { c with t2 := (c.t2.removeIfExist k).2 }
  else if c.b1.contains k then { c with b1 := (c.b1.removeIfExist k).2 }
  else if c.b2.contains k then { c with b2 := (c.b2.removeIfExist k).2 }
  else c

/-- Go `func (c *ARCCache) Purge()` — clears the four containers, keeps `p`. -/
def ARCCache.Purge (c : ARCCache) : ARCCache :=
  { c with t1 := c.t1.Purge, t2 := c.t2.Purge, b1 := c.b1.Purge, b2 := c.b2.Purge }

/-- Go `func (c *ARCCache) Items() []*Item` — `T1` then `T2`. -/
def ARCCache.Items (c : ARCCache) : List (Key × Val) :=
  c.t1.Items ++ c.t2.Items

/-- Membership in any of the four ARC containers (cache or ghost). -/
def ARCCache.anywhere (c : ARCCache) (k : Key) : Bool :=
  c.t1.contains k || c.t2.contains k || c.b1.contains k || c.b2.contains k

/-- The state transition of one public `ARCCache` operation. -/
def stepARC (c : ARCCache) : CacheOp → ARCCache
  | .get k => (c.Get k).2
  | .put k v => c.Put k v
  | .peek _ => c
  | .remove k => c.Remove k
  | .purge => c.Purge
  | .items => c
  | .len => c

/-- Run a sequence of public operations on an `ARCCache`. -/
def runARC (c : ARCCache) (ops : List CacheOp) : ARCCache := ops.foldl stepARC c

/-- The inductive invariant of reachable `ARCCache` states used for the
adaptation-bounds claim: `p` stays within `[0, size]`, each resident list
respects its own capacity, and the total occupancy is at most `size + 1`. -/
def InvARC (c : ARCCache) : Prop :=
  1 ≤ c.size ∧ c.t1.size = c.size ∧ c.t2.size = c.size ∧
  0 ≤ c.p ∧ c.p ≤ (c.size : Int) ∧
  c.t1.Len ≤ c.size ∧ c.t2.Len ≤ c.size ∧
  c.t1.Len + c.t2.Len ≤ c.size + 1

/-- The inductive invariant of reachable `TwoQueueCache` states: the two
resident lists are provisioned to `size`, the recent target is strictly
below `size`, and total occupancy never exceeds `size`. -/
def Inv2Q (c : TwoQueueCache) : Prop :=
  1 ≤ c.size ∧ c.recent.size = c.size ∧ c.frequent.size = c.size ∧
  c.recentSize < c.size ∧
  c.recent.Len + c.frequent.Len ≤ c.size

/-! ## List-level lemmas about the recency-list primitives -/

theorem findEntry_some {k : Key} {l : List (Key × Val)} {e : Key × Val}
    (h : findEntry k l = some e) : e.1 = k ∧ e ∈ l := by
  induction l with
  | nil => simp [findEntry] at h
  | cons a t ih =>
    by_cases ha : a.1 = k
    · simp only [findEntry, if_pos ha, Option.some.injEq] at h
      subst h
      exact ⟨ha, List.mem_cons_self _ _⟩
    · simp only [findEntry, if_neg ha] at h
      rcases ih h with ⟨h1, h2⟩
      exact ⟨h1, List.mem_cons_of_mem _ h2⟩

theorem eraseKey_of_none {k : Key} {l : List (Key × Val)}
    (h : findEntry k l = none) : eraseKey k l = l := by
  induction l with
  | nil => simp [eraseKey]
  | cons a t ih =>
    by_cases ha : a.1 = k
    · simp [findEntry, ha] at h
    · simp only [findEntry, if_neg ha] at h
      simp [eraseKey, ha, ih h]

theorem length_eraseKey {k : Key} {l : List (Key × Val)}
    (h : (findEntry k l).isSome = true) : (eraseKey k l).length + 1 = l.length := by
  induction l with
  | nil => simp [findEntry] at h
  | cons a t ih =>
    by_cases ha : a.1 = k
    · simp [eraseKey, ha]
    · simp only [findEntry, if_neg ha] at h
      simp only [eraseKey, if_neg ha, List.length_cons]
      have := ih h
      omega

theorem length_eraseKey_le (k : Key) (l : List (Key × Val)) :
    (eraseKey k l).length ≤ l.length := by
  induction l with
  | nil => simp [eraseKey]
  | cons a t ih =>
    by_cases ha : a.1 = k
    · simp [eraseKey, ha]
    · simp only [eraseKey, if_neg ha, List.length_cons]
      omega

theorem findEntry_eraseKey_ne {k' k : Key} (hne : k' ≠ k) (l : List (Key × Val)) :
    findEntry k' (eraseKey k l) = findEntry k' l := by
  induction l with
  | nil => rfl
  | cons a t ih =>
    by_cases ha : a.1 = k
    · rw [show eraseKey k (a :: t) = t by simp [eraseKey, ha]]
      rw [show findEntry k' (a :: t) = findEntry k' t by
        simp [findEntry, ha, Ne.symm hne]]
    · rw [show eraseKey k (a :: t) = a :: eraseKey k t by simp [eraseKey, ha]]
      by_cases ha' : a.1 = k'
      · simp [findEntry, ha']
      · simp [findEntry, ha', ih]

theorem findEntry_dropLast {k : Key} {l : List (Key × Val)}
    (h : (findEntry k l.dropLast).isSome = true) : (findEntry k l).isSome = true := by
  induction l with
  | nil => simp [findEntry] at h
  | cons a t ih =>
    cases t with
    | nil => simp [List.dropLast, findEntry] at h
    | cons b t' =>
      rw [List.dropLast_cons₂] at h
      by_cases ha : a.1 = k
      · simp [findEntry, ha]
      · simp only [findEntry, if_neg ha] at h ⊢
        exact ih h

theorem findEntry_mem_keys {k : Key} {l : List (Key × Val)}
    (h : k ∈ l.map Prod.fst) : (findEntry k l).isSome = true := by
  induction l with
  | nil => simp at h
  | cons a t ih =>
    by_cases ha : a.1 = k
    · simp [findEntry, ha]
    · simp only [List.map_cons, List.mem_cons] at h
      rcases h with h | h
      · exact absurd h.symm ha
      · simp only [findEntry, if_neg ha]
        exact ih h

theorem findEntry_not_mem_keys {k : Key} {l : List (Key × Val)}
    (h : k ∉ l.map Prod.fst) : findEntry k l = none := by
  cases he : findEntry k l with
  | none => rfl
  | some e =>
    rcases findEntry_some he with ⟨h1, h2⟩
    exact absurd (h1 ▸ List.mem_map_of_mem Prod.fst h2) h

theorem keys_eraseKey_sublist (k : Key) (l : List (Key × Val)) :
    List.Sublist ((eraseKey k l).map Prod.fst) (l.map Prod.fst) := by
  induction l with
  | nil => simp [eraseKey]
  | cons a t ih =>
    by_cases ha : a.1 = k
    · simp only [eraseKey, if_pos ha, List.map_cons]
      exact List.sublist_cons_of_sublist _ (List.Sublist.refl _)
    · simp only [eraseKey, if_neg ha, List.map_cons]
      exact List.Sublist.cons₂ _ ih

theorem keysNodup_eraseKey {k : Key} {l : List (Key × Val)}
    (h : keysNodup l) : keysNodup (eraseKey k l) :=
  List.Nodup.sublist (keys_eraseKey_sublist k l) h

theorem findEntry_eraseKey_self {k : Key} {l : List (Key × Val)}
    (h : keysNodup l) : findEntry k (eraseKey k l) = none := by
  induction l with
  | nil => simp [eraseKey, findEntry]
  | cons a t ih =>
    rcases List.nodup_cons.mp h with ⟨ha1, ha2⟩
    by_cases ha : a.1 = k
    · simp only [eraseKey, if_pos ha]
      exact findEntry_not_mem_keys (ha ▸ ha1)
    · simp only [eraseKey, if_neg ha, findEntry, if_neg ha]
      exact ih ha2

theorem keysNodup_cons {k : Key} {v : Val} {l : List (Key × Val)}
    (h : keysNodup l) (h2 : findEntry k l = none) : keysNodup ((k, v) :: l) := by
  refine List.nodup_cons.mpr ⟨fun hmem => ?_, h⟩
  have h3 := findEntry_mem_keys (show k ∈ l.map Prod.fst from hmem)
  rw [h2] at h3
  cases h3

theorem keysNodup_dropLast {l : List (Key × Val)} (h : keysNodup l) :
    keysNodup l.dropLast :=
  List.Nodup.sublist (List.Sublist.map Prod.fst (List.dropLast_sublist l)) h

theorem moveFront_contains {k : Key} {l : List (Key × Val)} {e : Key × Val}
    (h : findEntry k l = some e) (k' : Key) :
    (findEntry k' (e :: eraseKey k l)).isSome = (findEntry k' l).isSome := by
  rcases findEntry_some h with ⟨h1, _⟩
  by_cases hk : k' = k
  · subst hk
    simp [findEntry, h1, h]
  · by_cases he : e.1 = k'
    · exact absurd (h1 ▸ he) (fun hh => hk hh.symm)
    · simp only [findEntry, if_neg he]
      rw [findEntry_eraseKey_ne hk]

theorem getLast?_mem_keys {l : List (Key × Val)} {e : Key × Val}
    (h : l.getLast? = some e) : e.1 ∈ l.map Prod.fst := by
  rcases List.mem_getLast?_eq_getLast (show e ∈ l.getLast? from h) with ⟨hne, he⟩
  subst he
  exact List.mem_map_of_mem Prod.fst (List.getLast_mem hne)

/-! ## Lemmas about the LRU operations -/

theorem LRU.Get_size (c : LRU) (k : Key) : ((c.Get k).2).size = c.size := by
  unfold LRU.Get
  cases h : findEntry k c.entries <;> simp

theorem LRU.Get_len (c : LRU) (k : Key) : ((c.Get k).2).Len = c.Len := by
  unfold LRU.Get
  cases h : findEntry k c.entries with
  | none => simp
  | some e =>
    simp only [LRU.Len, List.length_cons]
    have := @length_eraseKey k c.entries (by simp [h])
    simpa using this

theorem LRU.Get_contains (c : LRU) (k k' : Key) :
    ((c.Get k).2).contains k' = c.contains k' := by
  unfold LRU.Get
  cases h : findEntry k c.entries with
  | none => simp
  | some e => simpa [LRU.contains] using moveFront_contains h k'

theorem LRU.Put_size (c : LRU) (k : Key) (v : Val) : (c.Put k v).size = c.size := by
  unfold LRU.Put
  split <;> [skip; split] <;> simp

theorem LRU.Put_len_le_succ (c : LRU) (k : Key) (v : Val) :
    (c.Put k v).Len ≤ c.Len + 1 := by
  unfold LRU.Put
  split
  · rename_i h
    simp only [LRU.Len, List.length_cons]
    have := length_eraseKey_le k c.entries
    omega
  · split
    · simp only [LRU.Len, List.length_dropLast, List.length_cons]
      omega
    · simp [LRU.Len]

theorem LRU.Put_len_le (c : LRU) (k : Key) (v : Val) (h : c.Len ≤ c.size) :
    (c.Put k v).Len ≤ c.size := by
  unfold LRU.Put
  split
  · rename_i hc
    simp only [LRU.Len, List.length_cons]
    have := @length_eraseKey k c.entries hc
    simp only [LRU.Len] at h
    omega
  · split
    · rename_i _ hlen
      simp only [LRU.Len, List.length_dropLast, List.length_cons]
      simp only [LRU.Len] at h
      omega
    · rename_i _ hlen
      simp only [LRU.Len, List.length_cons]
      simp only [LRU.Len] at h
      omega

theorem LRU.Put_len_contains (c : LRU) (k : Key) (v : Val)
    (h : c.contains k = true) : (c.Put k v).Len = c.Len := by
  unfold LRU.Put
  rw [if_pos h]
  simp only [LRU.Len, List.length_cons]
  have := @length_eraseKey k c.entries h
  omega

theorem LRU.Put_entries_new (c : LRU) (k : Key) (v : Val)
    (h1 : c.contains k = false) (h2 : c.Len < c.size) :
    (c.Put k v).entries = (k, v) :: c.entries := by
  unfold LRU.Put
  rw [if_neg (by simp [h1])]
  rw [if_neg (by simp only [LRU.Len] at h2; omega)]

theorem LRU.Put_len_new (c : LRU) (k : Key) (v : Val)
    (h1 : c.contains k = false) (h2 : c.Len < c.size) :
    (c.Put k v).Len = c.Len + 1 := by
  simp [LRU.Len, LRU.Put_entries_new c k v h1 h2]

theorem LRU.Put_contains_self (c : LRU) (k : Key) (v : Val) (h : 1 ≤ c.size) :
    (c.Put k v).contains k = true := by
  unfold LRU.Put
  split
  · simp [LRU.contains, findEntry]
  · split
    · rename_i _ hlen
      cases he : c.entries with
      | nil => rw [he] at hlen; simp at hlen; omega
      | cons a t =>
        rw [List.dropLast_cons₂]
        simp [LRU.contains, findEntry]
    · simp [LRU.contains, findEntry]

theorem LRU.Put_keysNodup (c : LRU) (k : Key) (v : Val)
    (h : keysNodup c.entries) : keysNodup ((c.Put k v).entries) := by
  unfold LRU.Put
  split
  · rename_i hc
    exact keysNodup_cons (keysNodup_eraseKey h) (findEntry_eraseKey_self h)
  · rename_i hc
    have hn : findEntry k c.entries = none :=
      Option.not_isSome_iff_eq_none.mp (by simpa [LRU.contains] using hc)
    split
    · exact keysNodup_dropLast (keysNodup_cons h hn)
    · exact keysNodup_cons h hn

theorem LRU.removeIfExist_size (c : LRU) (k : Key) :
    ((c.removeIfExist k).2).size = c.size := by
  unfold LRU.removeIfExist
  split <;> simp

theorem LRU.removeIfExist_len_le (c : LRU) (k : Key) :
    ((c.removeIfExist k).2).Len ≤ c.Len := by
  unfold LRU.removeIfExist
  split
  · simpa [LRU.Len] using length_eraseKey_le k c.entries
  · simp

theorem LRU.removeIfExist_len_contains (c : LRU) (k : Key)
    (h : c.contains k = true) : ((c.removeIfExist k).2).Len + 1 = c.Len := by
  unfold LRU.removeIfExist
  rw [if_pos h]
  simpa [LRU.Len] using @length_eraseKey k c.entries h

theorem LRU.removeIfExist_contains_ne (c : LRU) {k' k : Key} (hne : k' ≠ k) :
    ((c.removeIfExist k).2).contains k' = c.contains k' := by
  unfold LRU.removeIfExist
  split
  · simp [LRU.contains, findEntry_eraseKey_ne hne]
  · rfl

theorem LRU.removeIfExist_not_contains (c : LRU) (k : Key)
    (h : keysNodup c.entries) : ((c.removeIfExist k).2).contains k = false := by
  unfold LRU.removeIfExist
  split
  · simp [LRU.contains, findEntry_eraseKey_self h]
  · rename_i hc
    simpa using hc

theorem LRU.removeIfExist_keysNodup (c : LRU) (k : Key)
    (h : keysNodup c.entries) : keysNodup ((c.removeIfExist k).2).entries := by
  unfold LRU.removeIfExist
  split
  · exact keysNodup_eraseKey h
  · exact h

theorem LRU.contains_pos (c : LRU) (k : Key) (h : c.contains k = true) :
    0 < c.Len := by
  cases he : c.entries with
  | nil => simp [LRU.contains, he, findEntry] at h
  | cons a t => simp [LRU.Len, he]

theorem LRU.removeOldest_size (c : LRU) : c.removeOldest.size = c.size := rfl

theorem LRU.removeOldest_len (c : LRU) : c.removeOldest.Len = c.Len - 1 := by
  simp [LRU.removeOldest, LRU.Len]

theorem LRU.gro_of_pos (c : LRU) (h : 0 < c.Len) :
    ∃ e, c.entries.getLast? = some e ∧
      c.getAndRemoveOldest = (some e, ⟨c.size, c.entries.dropLast⟩) := by
  cases he : c.entries.getLast? with
  | none =>
    rw [List.getLast?_eq_none_iff] at he
    simp [LRU.Len, he] at h
  | some e =>
    exact ⟨e, rfl, by unfold LRU.getAndRemoveOldest; rw [he]⟩

theorem LRU.contains_dropLast (c : LRU) (s : Nat) (k : Key)
    (h : (LRU.mk s c.entries.dropLast).contains k = true) : c.contains k = true :=
  findEntry_dropLast h

theorem LRU.Peek_contains (c : LRU) (k : Key) {v : Val}
    (h : c.Peek k = some v) : c.contains k = true := by
  unfold LRU.Peek at h
  unfold LRU.contains
  cases hf : findEntry k c.entries with
  | none => rw [hf] at h; cases h
  | some e => rfl

theorem LRU.Get_none_contains (c : LRU) (k : Key)
    (h : (c.Get k).1 = none) : c.contains k = false := by
  unfold LRU.Get at h
  unfold LRU.contains
  cases hf : findEntry k c.entries with
  | none => rfl
  | some e => rw [hf] at h; cases h

/-! ## Run-level lemmas for the LRU container -/

theorem stepLRU_size (c : LRU) (op : CacheOp) : (stepLRU c op).size = c.size := by
  cases op with
  | get k => exact LRU.Get_size c k
  | put k v => exact LRU.Put_size c k v
  | peek k => rfl
  | remove k => exact LRU.removeIfExist_size c k
  | purge => rfl
  | items => rfl
  | len => rfl

theorem stepLRU_len_le (c : LRU) (op : CacheOp) (h : c.Len ≤ c.size) :
    (stepLRU c op).Len ≤ c.size := by
  cases op with
  | get k => rw [stepLRU, LRU.Get_len]; exact h
  | put k v => exact LRU.Put_len_le c k v h
  | peek k => exact h
  | remove k => exact le_trans (LRU.removeIfExist_len_le c k) h
  | purge => simp [stepLRU, LRU.Purge, LRU.Len]
  | items => exact h
  | len => exact h

theorem runLRU_size (ops : List CacheOp) (c : LRU) : (runLRU c ops).size = c.size := by
  induction ops generalizing c with
  | nil => rfl
  | cons op t ih =>
    rw [runLRU, List.foldl_cons]
    rw [show List.foldl stepLRU (stepLRU c op) t = runLRU (stepLRU c op) t from rfl]
    rw [ih (stepLRU c op), stepLRU_size]

theorem runLRU_len_le (ops : List CacheOp) (c : LRU) (h : c.Len ≤ c.size) :
    (runLRU c ops).Len ≤ c.size := by
  induction ops generalizing c with
  | nil => exact h
  | cons op t ih =>
    rw [runLRU, List.foldl_cons]
    rw [show List.foldl stepLRU (stepLRU c op) t = runLRU (stepLRU c op) t from rfl]
    have h2 := stepLRU_size c op
    have := ih (stepLRU c op) (by rw [h2]; exact stepLRU_len_le c op h)
    rw [h2] at this
    exact this

/-! ## Claim C4: LRU capacity invariant and full-capacity eviction -/

/-- Claim C4: For a bounded LRU constructed with any positive capacity, after
every sequence of public operations `Len` never exceeds the configured
capacity; and a `Put` of a new key at full capacity keeps exactly the new
entry at the front and drops exactly the tail (oldest) entry. -/
theorem lru_capacity_invariant (size : Int) (c0 : LRU) (h0 : NewLRU size = some c0)
    (ops : List CacheOp) :
    ((runLRU c0 ops).Len ≤ c0.size ∧ (runLRU c0 ops).size = c0.size) ∧
    (∀ (s : LRU) (k : Key) (v : Val), 0 < s.size → s.Len = s.size →
      s.contains k = false →
      (s.Put k v).entries = (k, v) :: s.entries.dropLast ∧ (s.Put k v).Len = s.size) := by
  constructor
  · have hlen : c0.Len ≤ c0.size := by
      unfold NewLRU at h0
      split at h0
      · cases h0
      · cases h0
        simp [LRU.Len]
    exact ⟨runLRU_len_le ops c0 hlen, runLRU_size ops c0⟩
  · intro s k v hpos hfull hnotin
    have hput : (s.Put k v).entries = ((k, v) :: s.entries).dropLast := by
      unfold LRU.Put
      rw [if_neg (by simp [hnotin])]
      rw [if_pos (by simp only [LRU.Len] at hfull; omega)]
    constructor
    · rw [hput]
      cases he : s.entries with
      | nil =>
        exfalso
        have hz : s.Len = 0 := by rw [LRU.Len, he]; rfl
        omega
      | cons a t => rw [List.dropLast_cons₂]
    · rw [LRU.Len, hput, List.length_dropLast, List.length_cons]
      simp only [LRU.Len] at hfull
      omega

/-- Witness for C4 at capacity 2: three inserts stay within capacity, and a
`Put` of key 3 into the full container drops the tail entry. -/
theorem lru_capacity_invariant_witness :
    (runLRU (LRU.mk 2 []) [CacheOp.put 1 (some 10), CacheOp.put 2 (some 20),
        CacheOp.put 3 (some 30)]).Len ≤ (LRU.mk 2 []).size ∧
    ((LRU.mk 2 [(1, some 10), (2, some 20)]).Put 3 (some 30)).entries
      = (3, some 30) :: (LRU.mk 2 [(1, some 10), (2, some 20)]).entries.dropLast := by
  have h := lru_capacity_invariant 2 (LRU.mk 2 []) (by decide)
    [CacheOp.put 1 (some 10), CacheOp.put 2 (some 20), CacheOp.put 3 (some 30)]
  exact ⟨h.1.1,
    (h.2 (LRU.mk 2 [(1, some 10), (2, some 20)]) 3 (some 30)
      (by decide) (by decide) (by decide)).1⟩

/-! ## Claim C7: LRU recency scenario -/

/-- Claim C7: On a fresh LRU of capacity 2, the sequence `Put k1, Put k2,
Get k1, Put k3` (distinct keys) evicts `k2`, and `Items` afterwards holds
exactly the keys `k3` and `k1` (most recent first). -/
theorem lru_recency_scenario (k1 k2 k3 : Key) (v1 v2 v3 : Val) (c0 : LRU)
    (h0 : NewLRU 2 = some c0)
    (h12 : k1 ≠ k2) (h13 : k1 ≠ k3) (h23 : k2 ≠ k3) :
    (runLRU c0 [CacheOp.put k1 v1, CacheOp.put k2 v2, CacheOp.get k1,
        CacheOp.put k3 v3]).Items.map Prod.fst = [k3, k1] ∧
    (runLRU c0 [CacheOp.put k1 v1, CacheOp.put k2 v2, CacheOp.get k1,
        CacheOp.put k3 v3]).contains k2 = false := by
  have hc : c0 = LRU.mk 2 [] := by
    have h2 : NewLRU 2 = some (LRU.mk 2 []) := by decide
    rw [h2] at h0
    exact (Option.some.injEq _ _).mp h0.symm
  subst hc
  simp [runLRU, stepLRU, LRU.Put, LRU.Get, LRU.contains, LRU.Items, LRU.Len,
    findEntry, eraseKey, h12, h13, h23, Ne.symm h12, Ne.symm h13, Ne.symm h23,
    List.dropLast]

/-- Witness for C7 with keys 1, 2, 3. -/
theorem lru_recency_scenario_witness :
    (runLRU (LRU.mk 2 []) [CacheOp.put 1 (some 10), CacheOp.put 2 (some 20),
        CacheOp.get 1, CacheOp.put 3 (some 30)]).Items.map Prod.fst = [3, 1] ∧
    (runLRU (LRU.mk 2 []) [CacheOp.put 1 (some 10), CacheOp.put 2 (some 20),
        CacheOp.get 1, CacheOp.put 3 (some 30)]).contains 2 = false :=
  lru_recency_scenario 1 2 3 (some 10) (some 20) (some 30) (LRU.mk 2 [])
    (by decide) (by decide) (by decide) (by decide)

/-! ## Claim C10: ARC Put never divides by zero -/

/-- Claim C10: Every execution of `ARCCache.Put` is total: the explicitly
fallible model `putChecked`, whose integer divisions return `none` exactly
where Go would panic with a division by zero, always succeeds and agrees
with the total `Put` — on the `B1`-hit branch the division only runs when
`len(B2) > len(B1)` and membership of the key in `B1` forces
`len(B1) >= 1` (symmetrically for the `B2`-hit branch). -/
theorem arc_put_total (c : ARCCache) (k : Key) (v : Val) :
    c.putChecked k v = some (c.Put k v) := by
  unfold ARCCache.putChecked ARCCache.Put
  split
  · rfl
  · split
    · rfl
    · split
      · rename_i h1 h2 hb1
        have hpos : 0 < c.b1.Len := LRU.contains_pos c.b1 k hb1
        have hd : (if c.b1.Len < c.b2.Len then goDiv c.b2.Len c.b1.Len else some 1)
            = some (if c.b1.Len < c.b2.Len then c.b2.Len / c.b1.Len else 1) := by
          split
          · unfold goDiv
            rw [if_neg (by omega)]
          · rfl
        rw [hd]
      · split
        · rename_i h1 h2 hb1 hb2
          have hpos : 0 < c.b2.Len := LRU.contains_pos c.b2 k hb2
          have hd : (if c.b2.Len < c.b1.Len then goDiv c.b1.Len c.b2.Len else some 1)
              = some (if c.b2.Len < c.b1.Len then c.b1.Len / c.b2.Len else 1) := by
            split
            · unfold goDiv
              rw [if_neg (by omega)]
            · rfl
          rw [hd]
        · rfl

/-! ## Constructor lemmas -/

theorem NewLRU_isSome (size : Int) : (NewLRU size).isSome = true ↔ 0 < size := by
  unfold NewLRU
  split
  · rename_i h
    simp
    omega
  · rename_i h
    simp
    omega

theorem NewLRU_of_pos (size : Int) (h : ¬ size ≤ 0) :
    NewLRU size = some ⟨size.toNat, []⟩ := by
  unfold NewLRU
  rw [if_neg h]

theorem NewARC_isSome (size : Int) : (NewARC size).isSome = true ↔ 0 < size := by
  unfold NewARC
  by_cases h : size ≤ 0
  · rw [show NewLRU size = none by unfold NewLRU; rw [if_pos h]]
    simp
    omega
  · rw [NewLRU_of_pos size h]
    simp
    omega

theorem newTowQueueParams_isSome (size : Int) (r g : ℚ) :
    (newTowQueueParams size r g).isSome = true ↔
      (0 < size ∧ 0 ≤ r ∧ r ≤ 1 ∧ 0 ≤ g ∧ g ≤ 1 ∧ 0 < goScale size g) := by
  unfold newTowQueueParams
  split_ifs with h1 h2 h3
  · simp
    intro h
    omega
  · simp
    intro _ hr0 hr1
    rcases h2 with h | h
    · exact absurd h (not_lt.mpr hr0)
    · exact absurd h (not_lt.mpr hr1)
  · simp
    intro _ _ _ hg0 hg1
    rcases h3 with h | h
    · exact absurd h (not_lt.mpr hg0)
    · exact absurd h (not_lt.mpr hg1)
  · rcases not_or.mp h2 with ⟨hr0, hr1⟩
    rcases not_or.mp h3 with ⟨hg0, hg1⟩
    rw [NewLRU_of_pos size h1]
    by_cases hg : goScale size g ≤ 0
    · rw [show NewLRU (goScale size g) = none by unfold NewLRU; rw [if_pos hg]]
      simp
      intros
      omega
    · rw [NewLRU_of_pos _ hg]
      simp
      exact ⟨by omega, not_lt.mp hr0, not_lt.mp hr1, not_lt.mp hg0, not_lt.mp hg1, by omega⟩

theorem goScale_defaultGhost (size : Int) : goScale size defaultGhostRat = size.tdiv 2 := by
  unfold goScale defaultGhostRat
  rw [show (mkRat 1 2).num = 1 from rfl, show ((mkRat 1 2).den : Int) = 2 from rfl]
  rw [Int.mul_one]

theorem goScale_defaultRecent (size : Int) : goScale size defaultRecentRat = size.tdiv 4 := by
  unfold goScale defaultRecentRat
  rw [show (mkRat 1 4).num = 1 from rfl, show ((mkRat 1 4).den : Int) = 4 from rfl]
  rw [Int.mul_one]

theorem NewTwoQueueCache_isSome (size : Int) :
    (NewTwoQueueCache size).isSome = true ↔ 2 ≤ size := by
  unfold NewTwoQueueCache
  rw [newTowQueueParams_isSome, goScale_defaultGhost]
  constructor
  · rintro ⟨h1, -, -, -, -, h6⟩
    rw [Int.tdiv_eq_ediv (by omega) (by omega)] at h6
    omega
  · intro h
    refine ⟨by omega, by decide, by decide, by decide, by decide, ?_⟩
    rw [Int.tdiv_eq_ediv (by omega) (by omega)]
    omega

/-! ## Claim C3: exactly when construction fails -/

/-- Claim C3 (amended): Construction is the only fallible operation.  `NewLRU`
and `NewARC` succeed exactly on positive sizes.  `newTowQueueParams`
succeeds exactly when the size is positive, both ratios lie in `[0, 1]`,
and additionally the derived ghost capacity `int(size*ghostRatio)` is
positive.  Consequently the public 2Q constructor (default ratios
0.25/0.50) succeeds exactly for sizes at least 2 — it fails at size 1. -/
theorem construction_failure_characterization :
    (∀ size : Int, (NewLRU size).isSome = true ↔ 0 < size) ∧
    (∀ size : Int, (NewARC size).isSome = true ↔ 0 < size) ∧
    (∀ (size : Int) (r g : ℚ), (newTowQueueParams size r g).isSome = true ↔
      (0 < size ∧ 0 ≤ r ∧ r ≤ 1 ∧ 0 ≤ g ∧ g ≤ 1 ∧ 0 < goScale size g)) ∧
    (∀ size : Int, (NewTwoQueueCache size).isSome = true ↔ 2 ≤ size) :=
  ⟨NewLRU_isSome, NewARC_isSome, newTowQueueParams_isSome, NewTwoQueueCache_isSome⟩

/-- Counterexample to C3 as stated: 1 is a positive size, yet the 2Q
constructor with its default ratios fails there (the derived ghost
capacity `int(1 * 0.5)` is 0, and `NewLRU(0)` reports an error). -/
theorem twoq_default_size_one_fails_cex :
    (0 : Int) < 1 ∧ (NewTwoQueueCache 1).isSome = false := by decide

/-! ## Claim C8: a key can leave the ARC cache without a ghost entry -/

/-- Claim C8: Reachable silent-discard scenario on an ARC of size 1: after
`Put 1, Put 2, Put 1, Remove 1` the state has key 2 resident in `T1` with
`len(T1) = 1 = p`, `T2` empty and both ghost lists empty; the subsequent
`Put` of the brand-new key 3 triggers `replace`, which evicts nothing
(`len(T1) = p`, `b2ContainsKey = false`, `T2` empty), and the insert into
the full `T1` silently drops key 2 — afterwards key 2 is in none of
`T1`, `T2`, `B1`, `B2`, and both ghost lists are still empty. -/
theorem arc_silent_discard_scenario :
    NewARC 1 = some (ARCCache.mk 1 0 (LRU.mk 1 []) (LRU.mk 1 []) (LRU.mk 1 []) (LRU.mk 1 [])) ∧
    runARC (ARCCache.mk 1 0 (LRU.mk 1 []) (LRU.mk 1 []) (LRU.mk 1 []) (LRU.mk 1 []))
        [CacheOp.put 1 (some 10), CacheOp.put 2 (some 20),
         CacheOp.put 1 (some 30), CacheOp.remove 1]
      = ARCCache.mk 1 1 (LRU.mk 1 [(2, some 20)]) (LRU.mk 1 []) (LRU.mk 1 []) (LRU.mk 1 []) ∧
    ARCCache.Put
        (ARCCache.mk 1 1 (LRU.mk 1 [(2, some 20)]) (LRU.mk 1 []) (LRU.mk 1 []) (LRU.mk 1 []))
        3 (some 40)
      = ARCCache.mk 1 1 (LRU.mk 1 [(3, some 40)]) (LRU.mk 1 []) (LRU.mk 1 []) (LRU.mk 1 []) ∧
    (ARCCache.mk 1 1 (LRU.mk 1 [(3, some 40)]) (LRU.mk 1 []) (LRU.mk 1 [])
        (LRU.mk 1 [])).anywhere 2 = false := by
  decide

/-! ## Claim C2: the 2Q boundary tie-break -/

/-- Claim C2 (amended): In `ensureSpace` at the boundary
`len(recent) == recentSize` (with the cache full and `recent` non-empty),
it is the call with `recentEvict = false` (a brand-new key) that evicts
`recent`'s oldest entry into `ghost`, whereas the call with
`recentEvict = true` (a ghost-triggered admission) leaves `recent` and
`ghost` unchanged and evicts `frequent`'s oldest entry instead. -/
theorem twoq_boundary_tiebreak (c : TwoQueueCache)
    (h1 : c.recent.Len = c.recentSize)
    (h2 : c.size ≤ c.recent.Len + c.frequent.Len)
    (h3 : 0 < c.recent.Len) :
    ((c.ensureSpace true).recent = c.recent ∧
     (c.ensureSpace true).evict = c.evict ∧
     (c.ensureSpace true).frequent = c.frequent.removeOldest) ∧
    ((c.ensureSpace false).frequent = c.frequent ∧
     (c.ensureSpace false).recent = c.recent.removeOldest ∧
     ∀ e, c.recent.entries.getLast? = some e →
       (c.ensureSpace false).evict = c.evict.Put e.1 none) := by
  constructor
  · unfold TwoQueueCache.ensureSpace
    rw [if_neg (by omega)]
    rw [if_neg (by
      rintro ⟨-, hor⟩
      rcases hor with hlt | ⟨-, hcontra⟩
      · omega
      · exact absurd hcontra (by simp))]
    exact ⟨rfl, rfl, rfl⟩
  · unfold TwoQueueCache.ensureSpace
    rw [if_neg (by omega)]
    rw [if_pos ⟨h3, Or.inr ⟨h1, rfl⟩⟩]
    obtain ⟨e, he, hgro⟩ := LRU.gro_of_pos c.recent h3
    rw [hgro]
    refine ⟨rfl, rfl, fun e' he' => ?_⟩
    rw [he] at he'
    cases he'
    rfl

/-- Witness for C2 (amended) at a concrete boundary state of a size-4 2Q
cache (`recentSize = 1`, one entry in `recent`, three in `frequent`). -/
theorem twoq_boundary_tiebreak_witness :
    ((TwoQueueCache.ensureSpace
        (TwoQueueCache.mk 4 1 (LRU.mk 4 [(4, some 4)])
          (LRU.mk 4 [(3, some 3), (2, some 2), (1, some 1)]) (LRU.mk 2 [])) true).recent
      = (TwoQueueCache.mk 4 1 (LRU.mk 4 [(4, some 4)])
          (LRU.mk 4 [(3, some 3), (2, some 2), (1, some 1)]) (LRU.mk 2 [])).recent ∧
     (TwoQueueCache.ensureSpace
        (TwoQueueCache.mk 4 1 (LRU.mk 4 [(4, some 4)])
          (LRU.mk 4 [(3, some 3), (2, some 2), (1, some 1)]) (LRU.mk 2 [])) true).evict
      = (TwoQueueCache.mk 4 1 (LRU.mk 4 [(4, some 4)])
          (LRU.mk 4 [(3, some 3), (2, some 2), (1, some 1)]) (LRU.mk 2 [])).evict ∧
     (TwoQueueCache.ensureSpace
        (TwoQueueCache.mk 4 1 (LRU.mk 4 [(4, some 4)])
          (LRU.mk 4 [(3, some 3), (2, some 2), (1, some 1)]) (LRU.mk 2 [])) true).frequent
      = (TwoQueueCache.mk 4 1 (LRU.mk 4 [(4, some 4)])
          (LRU.mk 4 [(3, some 3), (2, some 2), (1, some 1)]) (LRU.mk 2 [])).frequent.removeOldest) ∧
    ((TwoQueueCache.ensureSpace
        (TwoQueueCache.mk 4 1 (LRU.mk 4 [(4, some 4)])
          (LRU.mk 4 [(3, some 3), (2, some 2), (1, some 1)]) (LRU.mk 2 [])) false).frequent
      = (TwoQueueCache.mk 4 1 (LRU.mk 4 [(4, some 4)])
          (LRU.mk 4 [(3, some 3), (2, some 2), (1, some 1)]) (LRU.mk 2 [])).frequent ∧
     (TwoQueueCache.ensureSpace
        (TwoQueueCache.mk 4 1 (LRU.mk 4 [(4, some 4)])
          (LRU.mk 4 [(3, some 3), (2, some 2), (1, some 1)]) (LRU.mk 2 [])) false).recent
      = (TwoQueueCache.mk 4 1 (LRU.mk 4 [(4, some 4)])
          (LRU.mk 4 [(3, some 3), (2, some 2), (1, some 1)]) (LRU.mk 2 [])).recent.removeOldest ∧
     ∀ e, (TwoQueueCache.mk 4 1 (LRU.mk 4 [(4, some 4)])
          (LRU.mk 4 [(3, some 3), (2, some 2), (1, some 1)])
          (LRU.mk 2 [])).recent.entries.getLast? = some e →
       (TwoQueueCache.ensureSpace
          (TwoQueueCache.mk 4 1 (LRU.mk 4 [(4, some 4)])
            (LRU.mk 4 [(3, some 3), (2, some 2), (1, some 1)]) (LRU.mk 2 [])) false).evict
        = (TwoQueueCache.mk 4 1 (LRU.mk 4 [(4, some 4)])
            (LRU.mk 4 [(3, some 3), (2, some 2), (1, some 1)]) (LRU.mk 2 [])).evict.Put e.1 none) :=
  twoq_boundary_tiebreak
    (TwoQueueCache.mk 4 1 (LRU.mk 4 [(4, some 4)])
      (LRU.mk 4 [(3, some 3), (2, some 2), (1, some 1)]) (LRU.mk 2 []))
    (by decide) (by decide) (by decide)

/-- Counterexample to C2 as stated: at the same boundary state, the
`recentEvict = true` call does NOT evict from `recent` into `ghost`
(both are unchanged, `frequent` shrinks), and the `recentEvict = false`
call DOES evict `recent`'s only entry into `ghost`. -/
theorem twoq_boundary_tiebreak_cex :
    (TwoQueueCache.ensureSpace
        (TwoQueueCache.mk 4 1 (LRU.mk 4 [(4, some 4)])
          (LRU.mk 4 [(3, some 3), (2, some 2), (1, some 1)]) (LRU.mk 2 [])) true)
      = TwoQueueCache.mk 4 1 (LRU.mk 4 [(4, some 4)])
          (LRU.mk 4 [(3, some 3), (2, some 2)]) (LRU.mk 2 []) ∧
    (TwoQueueCache.ensureSpace
        (TwoQueueCache.mk 4 1 (LRU.mk 4 [(4, some 4)])
          (LRU.mk 4 [(3, some 3), (2, some 2), (1, some 1)]) (LRU.mk 2 [])) false)
      = TwoQueueCache.mk 4 1 (LRU.mk 4 [])
          (LRU.mk 4 [(3, some 3), (2, some 2), (1, some 1)]) (LRU.mk 2 [(4, none)]) := by
  decide

/-! ## Lemmas about `ARCCache.replace` -/

theorem ARCCache.replace_p (c : ARCCache) (b : Bool) : (c.replace b).p = c.p := by
  unfold ARCCache.replace
  split
  · rcases hg : c.t1.getAndRemoveOldest with ⟨o, t⟩
    cases o <;> simp [hg]
  · rcases hg : c.t2.getAndRemoveOldest with ⟨o, t⟩
    cases o <;> simp [hg]

/-! ## Claim C6: ghost-hit tuning of the adaptation parameter -/

/-- Claim C6: A `Put` on a key currently in `B1` (and in neither resident
list) sets `p` to `min(size, p + max(1, len(B2)/len(B1)))`, hence strictly
increases `p` unless it is already at `size`; a `Put` on a key currently
in `B2` sets `p` to `max(0, p - max(1, len(B1)/len(B2)))`, hence strictly
decreases `p` unless it is already at 0. -/
theorem arc_ghost_hit_tuning (c : ARCCache) (k : Key) (v : Val) :
    (c.t1.contains k = false → c.t2.contains k = false → c.b1.contains k = true →
      (c.Put k v).p = min (c.size : Int) (c.p + ((max 1 (c.b2.Len / c.b1.Len) : Nat) : Int)) ∧
      (c.p < (c.size : Int) → c.p < (c.Put k v).p)) ∧
    (c.t1.contains k = false → c.t2.contains k = false → c.b1.contains k = false →
      c.b2.contains k = true →
      (c.Put k v).p = max 0 (c.p - ((max 1 (c.b1.Len / c.b2.Len) : Nat) : Int)) ∧
      ((0 : Int) < c.p → (c.Put k v).p < c.p)) := by
  constructor
  · intro h1 h2 hb1
    have hpos : 0 < c.b1.Len := LRU.contains_pos c.b1 k hb1
    have hdelta : (if c.b1.Len < c.b2.Len then c.b2.Len / c.b1.Len else 1)
        = max 1 (c.b2.Len / c.b1.Len) := by
      split
      · rename_i hlt
        have h := (Nat.one_le_div_iff hpos).mpr (le_of_lt hlt)
        omega
      · rename_i hge
        have h := @Nat.div_le_div_right c.b2.Len c.b1.Len c.b1.Len (Nat.le_of_not_lt hge)
        have h2 := Nat.div_self hpos
        omega
    have hp : (c.Put k v).p =
        (if (c.size : Int) ≤ c.p + ((max 1 (c.b2.Len / c.b1.Len) : Nat) : Int)
         then (c.size : Int)
         else c.p + ((max 1 (c.b2.Len / c.b1.Len) : Nat) : Int)) := by
      unfold ARCCache.Put
      rw [if_neg (by simp [h1]), if_neg (by simp [h2]), if_pos hb1]
      simp only [apply_ite ARCCache.p, ARCCache.replace_p, ite_self, hdelta]
    constructor
    · rw [hp]
      generalize c.b2.Len / c.b1.Len = q
      split <;> omega
    · intro hlt
      rw [hp]
      generalize c.b2.Len / c.b1.Len = q
      split <;> omega
  · intro h1 h2 hb1 hb2
    have hpos : 0 < c.b2.Len := LRU.contains_pos c.b2 k hb2
    have hdelta : (if c.b2.Len < c.b1.Len then c.b1.Len / c.b2.Len else 1)
        = max 1 (c.b1.Len / c.b2.Len) := by
      split
      · rename_i hlt
        have h := (Nat.one_le_div_iff hpos).mpr (le_of_lt hlt)
        omega
      · rename_i hge
        have h := @Nat.div_le_div_right c.b1.Len c.b2.Len c.b2.Len (Nat.le_of_not_lt hge)
        have h2 := Nat.div_self hpos
        omega
    have hp : (c.Put k v).p =
        (if c.p ≤ ((max 1 (c.b1.Len / c.b2.Len) : Nat) : Int)
         then 0
         else c.p - ((max 1 (c.b1.Len / c.b2.Len) : Nat) : Int)) := by
      unfold ARCCache.Put
      rw [if_neg (by simp [h1]), if_neg (by simp [h2]), if_neg (by simp [hb1]), if_pos hb2]
      simp only [apply_ite ARCCache.p, ARCCache.replace_p, ite_self, hdelta]
    constructor
    · rw [hp]
      generalize c.b1.Len / c.b2.Len = q
      split <;> omega
    · intro hlt
      rw [hp]
      generalize c.b1.Len / c.b2.Len = q
      split <;> omega

/-- Witness for C6: a `B1` ghost hit at `p = 1`, `size = 4` raises `p`
to 2; a `B2` ghost hit at `p = 1` lowers it to 0. -/
theorem arc_ghost_hit_tuning_witness :
    ((((ARCCache.mk 4 1 (LRU.mk 4 []) (LRU.mk 4 [(7, none)]) (LRU.mk 4 [])
          (LRU.mk 4 [])).Put 7 (some 1)).p = 2) ∧
      (1 : Int) < (((ARCCache.mk 4 1 (LRU.mk 4 []) (LRU.mk 4 [(7, none)]) (LRU.mk 4 [])
          (LRU.mk 4 [])).Put 7 (some 1)).p)) ∧
    ((((ARCCache.mk 4 1 (LRU.mk 4 []) (LRU.mk 4 []) (LRU.mk 4 [])
          (LRU.mk 4 [(8, none)])).Put 8 (some 1)).p = 0) ∧
      (((ARCCache.mk 4 1 (LRU.mk 4 []) (LRU.mk 4 []) (LRU.mk 4 [])
          (LRU.mk 4 [(8, none)])).Put 8 (some 1)).p) < 1) := by
  constructor
  · have h := (arc_ghost_hit_tuning
      (ARCCache.mk 4 1 (LRU.mk 4 []) (LRU.mk 4 [(7, none)]) (LRU.mk 4 []) (LRU.mk 4 []))
      7 (some 1)).1 (by decide) (by decide) (by decide)
    exact ⟨by rw [h.1]; decide, h.2 (by decide)⟩
  · have h := (arc_ghost_hit_tuning
      (ARCCache.mk 4 1 (LRU.mk 4 []) (LRU.mk 4 []) (LRU.mk 4 []) (LRU.mk 4 [(8, none)]))
      8 (some 1)).2 (by decide) (by decide) (by decide) (by decide)
    exact ⟨by rw [h.1]; decide, h.2 (by decide)⟩

theorem ARCCache.replace_spec (c : ARCCache) (b : Bool) :
    (c.replace b).size = c.size ∧ (c.replace b).t1.size = c.t1.size ∧
    (c.replace b).t2.size = c.t2.size ∧
    (c.replace b).t1.Len ≤ c.t1.Len ∧ (c.replace b).t2.Len ≤ c.t2.Len ∧
    (c.replace b).t1.Len + (c.replace b).t2.Len
      ≤ max (c.t1.Len + c.t2.Len - 1) c.t1.Len := by
  unfold ARCCache.replace
  split
  · rename_i hcond
    obtain ⟨e, he, hgro⟩ := LRU.gro_of_pos c.t1 hcond.1
    rw [hgro]
    refine ⟨rfl, rfl, rfl, ?_, le_refl _, ?_⟩
    · simp only [LRU.Len, List.length_dropLast]
      omega
    · simp only [LRU.Len, List.length_dropLast]
      have := hcond.1
      simp only [LRU.Len] at this
      omega
  · by_cases ht2 : 0 < c.t2.Len
    · obtain ⟨e, he, hgro⟩ := LRU.gro_of_pos c.t2 ht2
      rw [hgro]
      refine ⟨rfl, rfl, rfl, le_refl _, ?_, ?_⟩
      · simp only [LRU.Len, List.length_dropLast]
        omega
      · simp only [LRU.Len, List.length_dropLast]
        simp only [LRU.Len] at ht2
        omega
    · have hnil : c.t2.entries = [] := by
        simp only [LRU.Len] at ht2
        exact List.length_eq_zero.mp (by omega)
      have hgro : c.t2.getAndRemoveOldest = (none, c.t2) := by
        unfold LRU.getAndRemoveOldest
        rw [hnil]
        rfl
      have h0 : c.t2.Len = 0 := by simp [LRU.Len, hnil]
      refine ⟨?_, ?_, ?_, ?_, ?_, ?_⟩ <;> simp only [hgro] <;> omega

theorem ARCCache.replace_size (c : ARCCache) (b : Bool) :
    (c.replace b).size = c.size := (ARCCache.replace_spec c b).1

theorem ARCCache.Put_size_eq (c : ARCCache) (k : Key) (v : Val) :
    (c.Put k v).size = c.size := by
  unfold ARCCache.Put
  split_ifs <;>
    simp only [apply_ite ARCCache.size, ARCCache.replace_size, ite_self]

theorem ARCCache.Get_state_size (c : ARCCache) (k : Key) :
    ((c.Get k).2).size = c.size := by
  unfold ARCCache.Get
  cases hpk : c.t1.Peek k with
  | some v => rfl
  | none =>
    rcases hg : c.t2.Get k with ⟨o, t2⟩
    cases o <;> simp [hg]

theorem ARCCache.Remove_size (c : ARCCache) (k : Key) :
    (c.Remove k).size = c.size := by
  unfold ARCCache.Remove
  split_ifs <;> rfl

theorem stepARC_size (c : ARCCache) (op : CacheOp) : (stepARC c op).size = c.size := by
  cases op with
  | get k => exact ARCCache.Get_state_size c k
  | put k v => exact ARCCache.Put_size_eq c k v
  | peek k => rfl
  | remove k => exact ARCCache.Remove_size c k
  | purge => rfl
  | items => rfl
  | len => rfl

theorem InvARC_of_fields (x : ARCCache)
    (h1 : 1 ≤ x.size) (h2 : x.t1.size = x.size) (h3 : x.t2.size = x.size)
    (h4 : 0 ≤ x.p) (h5 : x.p ≤ (x.size : Int)) (h6 : x.t1.Len ≤ x.size)
    (h7 : x.t2.Len ≤ x.size) (h8 : x.t1.Len + x.t2.Len ≤ x.size + 1) : InvARC x :=
  ⟨h1, h2, h3, h4, h5, h6, h7, h8⟩

/-! ## Preservation of the ARC invariant -/

theorem InvARC_promote (c : ARCCache) (k : Key) (v : Val)
    (h : InvARC c) (hc : c.t1.contains k = true) :
    InvARC { c with t1 := (c.t1.removeIfExist k).2, t2 := c.t2.Put k v } := by
  obtain ⟨hq, hs2, hs3, hp0, hp1, hl1, hl2, hsum⟩ := h
  have ha := LRU.removeIfExist_len_contains c.t1 k hc
  have hb := LRU.Put_len_le_succ c.t2 k v
  have hc2 := LRU.Put_len_le c.t2 k v (by omega)
  have hd := LRU.removeIfExist_size c.t1 k
  have he := LRU.Put_size c.t2 k v
  exact InvARC_of_fields _ (show 1 ≤ c.size by omega)
    (show ((c.t1.removeIfExist k).2).size = c.size by omega)
    (show (c.t2.Put k v).size = c.size by omega)
    (show 0 ≤ c.p by omega)
    (show c.p ≤ (c.size : Int) by omega)
    (show ((c.t1.removeIfExist k).2).Len ≤ c.size by omega)
    (show (c.t2.Put k v).Len ≤ c.size by omega)
    (show ((c.t1.removeIfExist k).2).Len + (c.t2.Put k v).Len ≤ c.size + 1 by omega)

theorem InvARC_ghost_branch (c : ARCCache) (k : Key) (v : Val) (P : Int) (b : Bool)
    (B1 B2 : LRU) (hInv : InvARC c) (hP0 : 0 ≤ P) (hP1 : P ≤ (c.size : Int)) :
    InvARC
      (let c1 : ARCCache := { c with p := P }
       let c2 := if c1.size ≤ c1.t1.Len + c1.t2.Len then c1.replace b else c1
       { c2 with b1 := B1, b2 := B2, t2 := c2.t2.Put k v }) := by
  have h' := hInv
  obtain ⟨hq, hs2, hs3, hp0, hp1, hl1, hl2, hsum⟩ := h'
  simp only []
  split_ifs with hA
  · have e0 : (({ c with p := P } : ARCCache).replace b).p = P := ARCCache.replace_p _ b
    have e1 : (({ c with p := P } : ARCCache).replace b).size = c.size :=
      (ARCCache.replace_spec _ b).1
    have e2 : (({ c with p := P } : ARCCache).replace b).t1.size = c.t1.size :=
      (ARCCache.replace_spec _ b).2.1
    have e3 : (({ c with p := P } : ARCCache).replace b).t2.size = c.t2.size :=
      (ARCCache.replace_spec _ b).2.2.1
    have e4 : (({ c with p := P } : ARCCache).replace b).t1.Len ≤ c.t1.Len :=
      (ARCCache.replace_spec _ b).2.2.2.1
    have e5 : (({ c with p := P } : ARCCache).replace b).t2.Len ≤ c.t2.Len :=
      (ARCCache.replace_spec _ b).2.2.2.2.1
    have e6 : (({ c with p := P } : ARCCache).replace b).t1.Len
        + (({ c with p := P } : ARCCache).replace b).t2.Len
        ≤ max (c.t1.Len + c.t2.Len - 1) c.t1.Len :=
      (ARCCache.replace_spec _ b).2.2.2.2.2
    have hput0 : ((({ c with p := P } : ARCCache).replace b).t2.Put k v).size
        = (({ c with p := P } : ARCCache).replace b).t2.size := LRU.Put_size _ _ _
    have hput1 : ((({ c with p := P } : ARCCache).replace b).t2.Put k v).Len
        ≤ (({ c with p := P } : ARCCache).replace b).t2.size :=
      LRU.Put_len_le _ _ _ (by omega)
    have hput2 : ((({ c with p := P } : ARCCache).replace b).t2.Put k v).Len
        ≤ (({ c with p := P } : ARCCache).replace b).t2.Len + 1 := LRU.Put_len_le_succ _ _ _
    exact InvARC_of_fields _
      (show 1 ≤ (({ c with p := P } : ARCCache).replace b).size by omega)
      (show (({ c with p := P } : ARCCache).replace b).t1.size
        = (({ c with p := P } : ARCCache).replace b).size by omega)
      (show ((({ c with p := P } : ARCCache).replace b).t2.Put k v).size
        = (({ c with p := P } : ARCCache).replace b).size by omega)
      (show 0 ≤ (({ c with p := P } : ARCCache).replace b).p by omega)
      (show (({ c with p := P } : ARCCache).replace b).p
        ≤ ((({ c with p := P } : ARCCache).replace b).size : Int) by omega)
      (show (({ c with p := P } : ARCCache).replace b).t1.Len
        ≤ (({ c with p := P } : ARCCache).replace b).size by omega)
      (show ((({ c with p := P } : ARCCache).replace b).t2.Put k v).Len
        ≤ (({ c with p := P } : ARCCache).replace b).size by omega)
      (show (({ c with p := P } : ARCCache).replace b).t1.Len
        + ((({ c with p := P } : ARCCache).replace b).t2.Put k v).Len
        ≤ (({ c with p := P } : ARCCache).replace b).size + 1 by omega)
  · have hput0 : (c.t2.Put k v).size = c.t2.size := LRU.Put_size _ _ _
    have hput1 : (c.t2.Put k v).Len ≤ c.t2.size := LRU.Put_len_le _ _ _ (by omega)
    have hput2 : (c.t2.Put k v).Len ≤ c.t2.Len + 1 := LRU.Put_len_le_succ _ _ _
    exact InvARC_of_fields _ (show 1 ≤ c.size by omega)
      (show c.t1.size = c.size by omega)
      (show (c.t2.Put k v).size = c.size by omega)
      (show 0 ≤ P by omega)
      (show P ≤ (c.size : Int) by omega)
      (show c.t1.Len ≤ c.size by omega)
      (show (c.t2.Put k v).Len ≤ c.size by omega)
      (show c.t1.Len + (c.t2.Put k v).Len ≤ c.size + 1 by omega)

theorem InvARC_new_branch (c : ARCCache) (k : Key) (v : Val) (hInv : InvARC c) :
    InvARC
      (let c1 := if c.size ≤ c.t1.Len + c.t2.Len then c.replace false else c
       let c2 := if (c1.size : Int) - c1.p < (c1.b1.Len : Int) then
           { c1 with b1 := c1.b1.removeOldest } else c1
       let c3 := if c2.p < (c2.b2.Len : Int) then
           { c2 with b2 := c2.b2.removeOldest } else c2
       { c3 with t1 := c3.t1.Put k v }) := by
  have h' := hInv
  obtain ⟨hq, hs2, hs3, hp0, hp1, hl1, hl2, hsum⟩ := h'
  simp only []
  split_ifs with h1 h2 h3 h4 h5 h6 h7 <;>
    first
      | (have e1 : (c.replace false).size = c.size := (ARCCache.replace_spec _ false).1
         have e0 : (c.replace false).p = c.p := ARCCache.replace_p _ false
         have e2 : (c.replace false).t1.size = c.t1.size := (ARCCache.replace_spec _ false).2.1
         have e3 : (c.replace false).t2.size = c.t2.size := (ARCCache.replace_spec _ false).2.2.1
         have e4 : (c.replace false).t1.Len ≤ c.t1.Len := (ARCCache.replace_spec _ false).2.2.2.1
         have e5 : (c.replace false).t2.Len ≤ c.t2.Len := (ARCCache.replace_spec _ false).2.2.2.2.1
         have e6 : (c.replace false).t1.Len + (c.replace false).t2.Len
             ≤ max (c.t1.Len + c.t2.Len - 1) c.t1.Len := (ARCCache.replace_spec _ false).2.2.2.2.2
         have hput0 : ((c.replace false).t1.Put k v).size = (c.replace false).t1.size :=
           LRU.Put_size _ _ _
         have hput1 : ((c.replace false).t1.Put k v).Len ≤ (c.replace false).t1.size :=
           LRU.Put_len_le _ _ _ (by omega)
         have hput2 : ((c.replace false).t1.Put k v).Len ≤ (c.replace false).t1.Len + 1 :=
           LRU.Put_len_le_succ _ _ _
         exact InvARC_of_fields _
           (show 1 ≤ (c.replace false).size by omega)
           (show ((c.replace false).t1.Put k v).size = (c.replace false).size by omega)
           (show (c.replace false).t2.size = (c.replace false).size by omega)
           (show 0 ≤ (c.replace false).p by omega)
           (show (c.replace false).p ≤ ((c.replace false).size : Int) by omega)
           (show ((c.replace false).t1.Put k v).Len ≤ (c.replace false).size by omega)
           (show (c.replace false).t2.Len ≤ (c.replace false).size by omega)
           (show ((c.replace false).t1.Put k v).Len + (c.replace false).t2.Len
             ≤ (c.replace false).size + 1 by omega))
      | (have hput0 : (c.t1.Put k v).size = c.t1.size := LRU.Put_size _ _ _
         have hput1 : (c.t1.Put k v).Len ≤ c.t1.size := LRU.Put_len_le _ _ _ (by omega)
         have hput2 : (c.t1.Put k v).Len ≤ c.t1.Len + 1 := LRU.Put_len_le_succ _ _ _
         exact InvARC_of_fields _ (show 1 ≤ c.size by omega)
           (show (c.t1.Put k v).size = c.size by omega)
           (show c.t2.size = c.size by omega)
           (show 0 ≤ c.p by omega)
           (show c.p ≤ (c.size : Int) by omega)
           (show (c.t1.Put k v).Len ≤ c.size by omega)
           (show c.t2.Len ≤ c.size by omega)
           (show (c.t1.Put k v).Len + c.t2.Len ≤ c.size + 1 by omega))

theorem InvARC_Put (c : ARCCache) (k : Key) (v : Val) (h : InvARC c) :
    InvARC (c.Put k v) := by
  have h' := h
  obtain ⟨hq, hs2, hs3, hp0, hp1, hl1, hl2, hsum⟩ := h'
  unfold ARCCache.Put
  split
  · rename_i h1
    exact InvARC_promote c k v h h1
  · rename_i h1
    split
    · rename_i h2
      have ha := LRU.Put_len_contains c.t2 k v h2
      have hb := LRU.Put_size c.t2 k v
      exact InvARC_of_fields _ (show 1 ≤ c.size by omega)
        (show c.t1.size = c.size by omega)
        (show (c.t2.Put k v).size = c.size by omega)
        (show 0 ≤ c.p by omega)
        (show c.p ≤ (c.size : Int) by omega)
        (show c.t1.Len ≤ c.size by omega)
        (show (c.t2.Put k v).Len ≤ c.size by omega)
        (show c.t1.Len + (c.t2.Put k v).Len ≤ c.size + 1 by omega)
    · rename_i h2
      split
      · rename_i h3
        refine InvARC_ghost_branch c k v _ false _ _ h ?_ ?_ <;>
          (generalize (if c.b1.Len < c.b2.Len then c.b2.Len / c.b1.Len else 1 : Nat) = q;
           split <;> omega)
      · rename_i h3
        split
        · rename_i h4
          refine InvARC_ghost_branch c k v _ true _ _ h ?_ ?_ <;>
            (generalize (if c.b2.Len < c.b1.Len then c.b1.Len / c.b2.Len else 1 : Nat) = q;
             split <;> omega)
        · rename_i h4
          exact InvARC_new_branch c k v h

theorem InvARC_Get (c : ARCCache) (k : Key) (h : InvARC c) : InvARC ((c.Get k).2) := by
  have h' := h
  obtain ⟨hq, hs2, hs3, hp0, hp1, hl1, hl2, hsum⟩ := h'
  unfold ARCCache.Get
  cases hpk : c.t1.Peek k with
  | some v => exact InvARC_promote c k v h (LRU.Peek_contains c.t1 k hpk)
  | none =>
    rcases hg : c.t2.Get k with ⟨o, t2x⟩
    cases o with
    | some v =>
      have hl : t2x.Len = c.t2.Len := by
        have hx := LRU.Get_len c.t2 k
        rw [hg] at hx
        exact hx
      have hsz : t2x.size = c.t2.size := by
        have hx := LRU.Get_size c.t2 k
        rw [hg] at hx
        exact hx
      exact InvARC_of_fields _ (show 1 ≤ c.size by omega)
        (show c.t1.size = c.size by omega)
        (show t2x.size = c.size by omega)
        (show 0 ≤ c.p by omega)
        (show c.p ≤ (c.size : Int) by omega)
        (show c.t1.Len ≤ c.size by omega)
        (show t2x.Len ≤ c.size by omega)
        (show c.t1.Len + t2x.Len ≤ c.size + 1 by omega)
    | none => exact h

theorem InvARC_Remove (c : ARCCache) (k : Key) (h : InvARC c) : InvARC (c.Remove k) := by
  have h' := h
  obtain ⟨hq, hs2, hs3, hp0, hp1, hl1, hl2, hsum⟩ := h'
  unfold ARCCache.Remove
  split_ifs with h1 h2 h3 h4
  · have ha := LRU.removeIfExist_size c.t1 k
    have hb := LRU.removeIfExist_len_le c.t1 k
    exact InvARC_of_fields _ (show 1 ≤ c.size by omega)
      (show ((c.t1.removeIfExist k).2).size = c.size by omega)
      (show c.t2.size = c.size by omega)
      (show 0 ≤ c.p by omega)
      (show c.p ≤ (c.size : Int) by omega)
      (show ((c.t1.removeIfExist k).2).Len ≤ c.size by omega)
      (show c.t2.Len ≤ c.size by omega)
      (show ((c.t1.removeIfExist k).2).Len + c.t2.Len ≤ c.size + 1 by omega)
  · have ha := LRU.removeIfExist_size c.t2 k
    have hb := LRU.removeIfExist_len_le c.t2 k
    exact InvARC_of_fields _ (show 1 ≤ c.size by omega)
      (show c.t1.size = c.size by omega)
      (show ((c.t2.removeIfExist k).2).size = c.size by omega)
      (show 0 ≤ c.p by omega)
      (show c.p ≤ (c.size : Int) by omega)
      (show c.t1.Len ≤ c.size by omega)
      (show ((c.t2.removeIfExist k).2).Len ≤ c.size by omega)
      (show c.t1.Len + ((c.t2.removeIfExist k).2).Len ≤ c.size + 1 by omega)
  · exact InvARC_of_fields _ (show 1 ≤ c.size by omega)
      (show c.t1.size = c.size by omega)
      (show c.t2.size = c.size by omega)
      (show 0 ≤ c.p by omega)
      (show c.p ≤ (c.size : Int) by omega)
      (show c.t1.Len ≤ c.size by omega)
      (show c.t2.Len ≤ c.size by omega)
      (show c.t1.Len + c.t2.Len ≤ c.size + 1 by omega)
  · exact InvARC_of_fields _ (show 1 ≤ c.size by omega)
      (show c.t1.size = c.size by omega)
      (show c.t2.size = c.size by omega)
      (show 0 ≤ c.p by omega)
      (show c.p ≤ (c.size : Int) by omega)
      (show c.t1.Len ≤ c.size by omega)
      (show c.t2.Len ≤ c.size by omega)
      (show c.t1.Len + c.t2.Len ≤ c.size + 1 by omega)
  · exact h

theorem InvARC_Purge (c : ARCCache) (h : InvARC c) : InvARC c.Purge := by
  obtain ⟨hq, hs2, hs3, hp0, hp1, -, -, -⟩ := h
  exact InvARC_of_fields _ (show 1 ≤ c.size by omega)
    (show c.t1.size = c.size by omega)
    (show c.t2.size = c.size by omega)
    (show 0 ≤ c.p by omega)
    (show c.p ≤ (c.size : Int) by omega)
    (show (0 : Nat) ≤ c.size by omega)
    (show (0 : Nat) ≤ c.size by omega)
    (show (0 : Nat) + 0 ≤ c.size + 1 by omega)

theorem InvARC_step (c : ARCCache) (op : CacheOp) (h : InvARC c) :
    InvARC (stepARC c op) := by
  cases op with
  | get k => exact InvARC_Get c k h
  | put k v => exact InvARC_Put c k v h
  | peek k => exact h
  | remove k => exact InvARC_Remove c k h
  | purge => exact InvARC_Purge c h
  | items => exact h
  | len => exact h

theorem InvARC_run (ops : List CacheOp) (c : ARCCache) (h : InvARC c) :
    InvARC (runARC c ops) := by
  induction ops generalizing c with
  | nil => exact h
  | cons op t ih => exact ih (stepARC c op) (InvARC_step c op h)

theorem runARC_size (ops : List CacheOp) (c : ARCCache) :
    (runARC c ops).size = c.size := by
  induction ops generalizing c with
  | nil => rfl
  | cons op t ih =>
    rw [show runARC c (op :: t) = runARC (stepARC c op) t from rfl]
    rw [ih (stepARC c op), stepARC_size]

theorem InvARC_NewARC (size : Int) (c0 : ARCCache) (h0 : NewARC size = some c0) :
    InvARC c0 := by
  unfold NewARC at h0
  by_cases h : size ≤ 0
  · rw [show NewLRU size = none by unfold NewLRU; rw [if_pos h]] at h0
    simp at h0
  · rw [NewLRU_of_pos size h] at h0
    simp only [Option.some.injEq] at h0
    subst h0
    exact InvARC_of_fields _ (show 1 ≤ size.toNat by omega) rfl rfl
      (show (0 : Int) ≤ 0 by omega)
      (show (0 : Int) ≤ (size.toNat : Int) by omega)
      (show (0 : Nat) ≤ size.toNat by omega)
      (show (0 : Nat) ≤ size.toNat by omega)
      (show (0 : Nat) + 0 ≤ size.toNat + 1 by omega)

/-! ## Claim C1: ARC adaptation bounds -/

/-- Claim C1 (amended): For the ARC cache constructed with any positive size,
after every sequence of public operations `0 <= p <= size` holds; the
occupancy bound that holds is `len(T1) + len(T2) <= size + 1` — the
original `<= size` fails (see the counterexample), because on a `B1` ghost
hit `replace` can evict nothing (`len(T1) = p`, `T2` empty) and the key is
still inserted into `T2`. -/
theorem arc_adaptation_bounds (size : Int) (c0 : ARCCache) (h0 : NewARC size = some c0)
    (ops : List CacheOp) :
    0 ≤ (runARC c0 ops).p ∧ (runARC c0 ops).p ≤ ((runARC c0 ops).size : Int) ∧
    (runARC c0 ops).Len ≤ (runARC c0 ops).size + 1 ∧
    (runARC c0 ops).size = c0.size := by
  have h := InvARC_run ops c0 (InvARC_NewARC size c0 h0)
  obtain ⟨-, -, -, hp0, hp1, -, -, hsum⟩ := h
  exact ⟨hp0, hp1, hsum, runARC_size ops c0⟩

/-- Witness for C1 (amended) on an ARC of size 1 after one `Put`. -/
theorem arc_adaptation_bounds_witness :
    0 ≤ (runARC (ARCCache.mk 1 0 (LRU.mk 1 []) (LRU.mk 1 []) (LRU.mk 1 []) (LRU.mk 1 []))
        [CacheOp.put 1 (some 10)]).p ∧
    (runARC (ARCCache.mk 1 0 (LRU.mk 1 []) (LRU.mk 1 []) (LRU.mk 1 []) (LRU.mk 1 []))
        [CacheOp.put 1 (some 10)]).p
      ≤ ((runARC (ARCCache.mk 1 0 (LRU.mk 1 []) (LRU.mk 1 []) (LRU.mk 1 []) (LRU.mk 1 []))
        [CacheOp.put 1 (some 10)]).size : Int) ∧
    (runARC (ARCCache.mk 1 0 (LRU.mk 1 []) (LRU.mk 1 []) (LRU.mk 1 []) (LRU.mk 1 []))
        [CacheOp.put 1 (some 10)]).Len
      ≤ (runARC (ARCCache.mk 1 0 (LRU.mk 1 []) (LRU.mk 1 []) (LRU.mk 1 []) (LRU.mk 1 []))
        [CacheOp.put 1 (some 10)]).size + 1 ∧
    (runARC (ARCCache.mk 1 0 (LRU.mk 1 []) (LRU.mk 1 []) (LRU.mk 1 []) (LRU.mk 1 []))
        [CacheOp.put 1 (some 10)]).size
      = (ARCCache.mk 1 0 (LRU.mk 1 []) (LRU.mk 1 []) (LRU.mk 1 []) (LRU.mk 1 [])).size :=
  arc_adaptation_bounds 1
    (ARCCache.mk 1 0 (LRU.mk 1 []) (LRU.mk 1 []) (LRU.mk 1 []) (LRU.mk 1 []))
    (by decide) [CacheOp.put 1 (some 10)]

/-- Counterexample to C1 as stated: on the ARC of size 1, the reachable
sequence `Put 1, Put 2, Put 1` leaves `len(T1) + len(T2) = 2 > 1 = size`. -/
theorem arc_sum_exceeds_size_cex :
    NewARC 1 = some (ARCCache.mk 1 0 (LRU.mk 1 []) (LRU.mk 1 []) (LRU.mk 1 []) (LRU.mk 1 [])) ∧
    (runARC (ARCCache.mk 1 0 (LRU.mk 1 []) (LRU.mk 1 []) (LRU.mk 1 []) (LRU.mk 1 []))
        [CacheOp.put 1 (some 10), CacheOp.put 2 (some 20), CacheOp.put 1 (some 30)]).Len = 2 ∧
    (runARC (ARCCache.mk 1 0 (LRU.mk 1 []) (LRU.mk 1 []) (LRU.mk 1 []) (LRU.mk 1 []))
        [CacheOp.put 1 (some 10), CacheOp.put 2 (some 20), CacheOp.put 1 (some 30)]).size = 1 := by
  decide

/-! ## Further LRU lemmas used by the 2Q proofs -/

theorem LRU.Put_peek_self (c : LRU) (k : Key) (v : Val) (h : 1 ≤ c.size) :
    (c.Put k v).Peek k = some v := by
  unfold LRU.Put LRU.Peek
  split
  · simp [findEntry]
  · split
    · rename_i hnc hlen
      cases he : c.entries with
      | nil => rw [he] at hlen; simp at hlen; omega
      | cons a t =>
        rw [List.dropLast_cons₂]
        simp [findEntry]
    · simp [findEntry]

theorem LRU.contains_dropLast_false (c : LRU) (s : Nat) (k : Key)
    (h : c.contains k = false) : (LRU.mk s c.entries.dropLast).contains k = false := by
  cases hcd : (LRU.mk s c.entries.dropLast).contains k
  · rfl
  · have hx := @findEntry_dropLast k c.entries hcd
    exact absurd hx (by simp [LRU.contains] at h; simp [h])

/-! ## The 2Q invariant -/

theorem Inv2Q_of_fields (x : TwoQueueCache)
    (h1 : 1 ≤ x.size) (h2 : x.recent.size = x.size) (h3 : x.frequent.size = x.size)
    (h4 : x.recentSize < x.size) (h5 : x.recent.Len + x.frequent.Len ≤ x.size) :
    Inv2Q x := ⟨h1, h2, h3, h4, h5⟩

theorem ensureSpace_spec (c : TwoQueueCache) (b : Bool) (h : Inv2Q c) :
    (c.ensureSpace b).size = c.size ∧ (c.ensureSpace b).recentSize = c.recentSize ∧
    (c.ensureSpace b).recent.size = c.recent.size ∧
    (c.ensureSpace b).frequent.size = c.frequent.size ∧
    (c.ensureSpace b).recent.Len ≤ c.recent.Len ∧
    (c.ensureSpace b).frequent.Len ≤ c.frequent.Len ∧
    (c.ensureSpace b).recent.Len + (c.ensureSpace b).frequent.Len ≤ c.size - 1 ∧
    (c.ensureSpace b).evict.size = c.evict.size := by
  obtain ⟨hq, hs2, hs3, hrs, hsum⟩ := h
  unfold TwoQueueCache.ensureSpace
  split_ifs with h1 h2
  · exact ⟨rfl, rfl, rfl, rfl, le_refl _, le_refl _, by omega, rfl⟩
  · obtain ⟨e, he, hgro⟩ := LRU.gro_of_pos c.recent h2.1
    rw [hgro]
    have hrpos := h2.1
    refine ⟨rfl, rfl, rfl, rfl, ?_, le_refl _, ?_, LRU.Put_size _ _ _⟩
    · simp only [LRU.Len, List.length_dropLast]
      omega
    · simp only [LRU.Len, List.length_dropLast] at *
      omega
  · have hfreq : 1 ≤ c.frequent.Len := by
      rcases Nat.eq_zero_or_pos c.recent.Len with hr | hr
      · omega
      · have hle : c.recent.Len ≤ c.recentSize := by
          by_contra hgt
          exact h2 ⟨hr, Or.inl (by omega)⟩
        omega
    refine ⟨rfl, rfl, rfl, rfl, le_refl _, ?_, ?_, rfl⟩
    · simp only [LRU.removeOldest, LRU.Len, List.length_dropLast]
      omega
    · simp only [LRU.removeOldest, LRU.Len, List.length_dropLast] at *
      omega

theorem Inv2Q_Put (c : TwoQueueCache) (k : Key) (v : Val) (h : Inv2Q c) :
    Inv2Q (c.Put k v) := by
  have h' := h
  obtain ⟨hq, hs2, hs3, hrs, hsum⟩ := h'
  unfold TwoQueueCache.Put
  split
  · rename_i h1
    have ha := LRU.Put_len_contains c.frequent k v h1
    have hb := LRU.Put_size c.frequent k v
    exact Inv2Q_of_fields _ (show 1 ≤ c.size by omega)
      (show c.recent.size = c.size by omega)
      (show (c.frequent.Put k v).size = c.size by omega)
      (show c.recentSize < c.size by omega)
      (show c.recent.Len + (c.frequent.Put k v).Len ≤ c.size by omega)
  · rename_i h1
    split
    · rename_i h2
      have ha := LRU.removeIfExist_len_contains c.recent k h2
      have hb := LRU.Put_len_le_succ c.frequent k v
      have hb2 := LRU.Put_len_le c.frequent k v (by omega)
      have hc2 := LRU.removeIfExist_size c.recent k
      have hd := LRU.Put_size c.frequent k v
      have hpos := LRU.contains_pos c.recent k h2
      exact Inv2Q_of_fields _ (show 1 ≤ c.size by omega)
        (show ((c.recent.removeIfExist k).2).size = c.size by omega)
        (show (c.frequent.Put k v).size = c.size by omega)
        (show c.recentSize < c.size by omega)
        (show ((c.recent.removeIfExist k).2).Len + (c.frequent.Put k v).Len ≤ c.size by omega)
    · rename_i h2
      split
      · rename_i h3
        obtain ⟨f1, f2, f3, f4, f5, f6, f7, f8⟩ := ensureSpace_spec c true h
        have hput1 : ((c.ensureSpace true).frequent.Put k v).Len
            ≤ (c.ensureSpace true).frequent.Len + 1 := LRU.Put_len_le_succ _ _ _
        have hput0 : ((c.ensureSpace true).frequent.Put k v).size
            = (c.ensureSpace true).frequent.size := LRU.Put_size _ _ _
        have hrm := LRU.removeIfExist_size (c.ensureSpace true).evict k
        exact Inv2Q_of_fields _
          (show 1 ≤ (c.ensureSpace true).size by omega)
          (show (c.ensureSpace true).recent.size = (c.ensureSpace true).size by omega)
          (show ((c.ensureSpace true).frequent.Put k v).size = (c.ensureSpace true).size by omega)
          (show (c.ensureSpace true).recentSize < (c.ensureSpace true).size by omega)
          (show (c.ensureSpace true).recent.Len + ((c.ensureSpace true).frequent.Put k v).Len
            ≤ (c.ensureSpace true).size by omega)
      · rename_i h3
        obtain ⟨f1, f2, f3, f4, f5, f6, f7, f8⟩ := ensureSpace_spec c false h
        have hput1 : ((c.ensureSpace false).recent.Put k v).Len
            ≤ (c.ensureSpace false).recent.Len + 1 := LRU.Put_len_le_succ _ _ _
        have hput0 : ((c.ensureSpace false).recent.Put k v).size
            = (c.ensureSpace false).recent.size := LRU.Put_size _ _ _
        exact Inv2Q_of_fields _
          (show 1 ≤ (c.ensureSpace false).size by omega)
          (show ((c.ensureSpace false).recent.Put k v).size = (c.ensureSpace false).size by omega)
          (show (c.ensureSpace false).frequent.size = (c.ensureSpace false).size by omega)
          (show (c.ensureSpace false).recentSize < (c.ensureSpace false).size by omega)
          (show ((c.ensureSpace false).recent.Put k v).Len + (c.ensureSpace false).frequent.Len
            ≤ (c.ensureSpace false).size by omega)

theorem Inv2Q_Get (c : TwoQueueCache) (k : Key) (h : Inv2Q c) : Inv2Q ((c.Get k).2) := by
  have h' := h
  obtain ⟨hq, hs2, hs3, hrs, hsum⟩ := h'
  unfold TwoQueueCache.Get
  rcases hg : c.frequent.Get k with ⟨o, fx⟩
  cases o with
  | some v =>
    have hl : fx.Len = c.frequent.Len := by
      have hx := LRU.Get_len c.frequent k
      rw [hg] at hx
      exact hx
    have hsz : fx.size = c.frequent.size := by
      have hx := LRU.Get_size c.frequent k
      rw [hg] at hx
      exact hx
    exact Inv2Q_of_fields _ (show 1 ≤ c.size by omega)
      (show c.recent.size = c.size by omega)
      (show fx.size = c.size by omega)
      (show c.recentSize < c.size by omega)
      (show c.recent.Len + fx.Len ≤ c.size by omega)
  | none =>
    cases hpk : c.recent.Peek k with
    | some v =>
      have hrc : c.recent.contains k = true := LRU.Peek_contains c.recent k hpk
      have ha := LRU.removeIfExist_len_contains c.recent k hrc
      have hb := LRU.Put_len_le_succ c.frequent k v
      have hc2 := LRU.removeIfExist_size c.recent k
      have hd := LRU.Put_size c.frequent k v
      have hpos := LRU.contains_pos c.recent k hrc
      exact Inv2Q_of_fields _ (show 1 ≤ c.size by omega)
        (show ((c.recent.removeIfExist k).2).size = c.size by omega)
        (show (c.frequent.Put k v).size = c.size by omega)
        (show c.recentSize < c.size by omega)
        (show ((c.recent.removeIfExist k).2).Len + (c.frequent.Put k v).Len ≤ c.size by omega)
    | none => exact h

theorem Inv2Q_Remove (c : TwoQueueCache) (k : Key) (h : Inv2Q c) : Inv2Q (c.Remove k) := by
  have h' := h
  obtain ⟨hq, hs2, hs3, hrs, hsum⟩ := h'
  unfold TwoQueueCache.Remove
  split_ifs with h1 h2 h3
  · have ha := LRU.removeIfExist_size c.frequent k
    have hb := LRU.removeIfExist_len_le c.frequent k
    exact Inv2Q_of_fields _ (show 1 ≤ c.size by omega)
      (show c.recent.size = c.size by omega)
      (show ((c.frequent.removeIfExist k).2).size = c.size by omega)
      (show c.recentSize < c.size by omega)
      (show c.recent.Len + ((c.frequent.removeIfExist k).2).Len ≤ c.size by omega)
  · have ha := LRU.removeIfExist_size c.recent k
    have hb := LRU.removeIfExist_len_le c.recent k
    exact Inv2Q_of_fields _ (show 1 ≤ c.size by omega)
      (show ((c.recent.removeIfExist k).2).size = c.size by omega)
      (show c.frequent.size = c.size by omega)
      (show c.recentSize < c.size by omega)
      (show ((c.recent.removeIfExist k).2).Len + c.frequent.Len ≤ c.size by omega)
  · exact Inv2Q_of_fields _ (show 1 ≤ c.size by omega)
      (show c.recent.size = c.size by omega)
      (show c.frequent.size = c.size by omega)
      (show c.recentSize < c.size by omega)
      (show c.recent.Len + c.frequent.Len ≤ c.size by omega)
  · exact h

theorem Inv2Q_Purge (c : TwoQueueCache) (h : Inv2Q c) : Inv2Q c.Purge := by
  obtain ⟨hq, hs2, hs3, hrs, -⟩ := h
  exact Inv2Q_of_fields _ (show 1 ≤ c.size by omega)
    (show c.recent.size = c.size by omega)
    (show c.frequent.size = c.size by omega)
    (show c.recentSize < c.size by omega)
    (show (0 : Nat) + 0 ≤ c.size by omega)

theorem Inv2Q_step (c : TwoQueueCache) (op : CacheOp) (h : Inv2Q c) :
    Inv2Q (step2Q c op) := by
  cases op with
  | get k => exact Inv2Q_Get c k h
  | put k v => exact Inv2Q_Put c k v h
  | peek k => exact h
  | remove k => exact Inv2Q_Remove c k h
  | purge => exact Inv2Q_Purge c h
  | items => exact h
  | len => exact h

theorem Inv2Q_run (ops : List CacheOp) (c : TwoQueueCache) (h : Inv2Q c) :
    Inv2Q (run2Q c ops) := by
  induction ops generalizing c with
  | nil => exact h
  | cons op t ih => exact ih (step2Q c op) (Inv2Q_step c op h)

theorem Inv2Q_New (size : Int) (c0 : TwoQueueCache)
    (h0 : NewTwoQueueCache size = some c0) : Inv2Q c0 := by
  unfold NewTwoQueueCache newTowQueueParams at h0
  split_ifs at h0 with h1 h2 h3
  rw [NewLRU_of_pos size h1] at h0
  by_cases hg : goScale size defaultGhostRat ≤ 0
  · rw [show NewLRU (goScale size defaultGhostRat) = none by
      unfold NewLRU; rw [if_pos hg]] at h0
    exact Option.noConfusion h0
  · rw [NewLRU_of_pos _ hg] at h0
    simp only [Option.some.injEq] at h0
    subst h0
    have hrec : (goScale size defaultRecentRat).toNat < size.toNat := by
      rw [goScale_defaultRecent, Int.tdiv_eq_ediv (by omega) (by omega)]
      omega
    exact Inv2Q_of_fields _ (show 1 ≤ size.toNat by omega) rfl rfl
      (show (goScale size defaultRecentRat).toNat < size.toNat from hrec)
      (show (0 : Nat) + 0 ≤ size.toNat by omega)

/-! ## Claim C9: Get on the 2Q cache is a frame operation -/

theorem twoq_get_frame_core (c : TwoQueueCache) (k : Key) (h : Inv2Q c) :
    ((c.Get k).2).Len = c.Len ∧ (∀ q, ((c.Get k).2).cached q = c.cached q) ∧
    ((c.Get k).2).evict = c.evict := by
  obtain ⟨hq, hs2, hs3, hrs, hsum⟩ := h
  unfold TwoQueueCache.Get
  rcases hg : c.frequent.Get k with ⟨o, fx⟩
  cases o with
  | some v =>
    have hl : fx.Len = c.frequent.Len := by
      have hx := LRU.Get_len c.frequent k
      rw [hg] at hx
      exact hx
    have hcont : ∀ q, fx.contains q = c.frequent.contains q := by
      intro q
      have hx := LRU.Get_contains c.frequent k q
      rw [hg] at hx
      exact hx
    refine ⟨?_, ?_, rfl⟩
    · show c.recent.Len + fx.Len = c.recent.Len + c.frequent.Len
      omega
    · intro q
      show (c.recent.contains q || fx.contains q) = (c.recent.contains q || c.frequent.contains q)
      rw [hcont q]
  | none =>
    have hfc : c.frequent.contains k = false := LRU.Get_none_contains c.frequent k (by rw [hg])
    cases hpk : c.recent.Peek k with
    | some v =>
      have hrc : c.recent.contains k = true := LRU.Peek_contains c.recent k hpk
      have hrlen := LRU.removeIfExist_len_contains c.recent k hrc
      have hrpos := LRU.contains_pos c.recent k hrc
      have hflt : c.frequent.Len < c.frequent.size := by omega
      have hfput : (c.frequent.Put k v).entries = (k, v) :: c.frequent.entries :=
        LRU.Put_entries_new c.frequent k v hfc hflt
      have hfputlen : (c.frequent.Put k v).Len = c.frequent.Len + 1 :=
        LRU.Put_len_new c.frequent k v hfc hflt
      refine ⟨?_, ?_, rfl⟩
      · show ((c.recent.removeIfExist k).2).Len + (c.frequent.Put k v).Len
          = c.recent.Len + c.frequent.Len
        omega
      · intro q
        show (((c.recent.removeIfExist k).2).contains q || (c.frequent.Put k v).contains q)
            = (c.recent.contains q || c.frequent.contains q)
        by_cases hqk : q = k
        · subst hqk
          have h1 : (c.frequent.Put q v).contains q = true :=
            LRU.Put_contains_self _ _ _ (by omega)
          rw [h1, hrc]
          simp
        · have h1 := @LRU.removeIfExist_contains_ne c.recent q k hqk
          have h2 : (c.frequent.Put k v).contains q = c.frequent.contains q := by
            show (findEntry q ((c.frequent.Put k v).entries)).isSome
              = (findEntry q c.frequent.entries).isSome
            rw [hfput]
            have hne : ¬ ((k, v).1 = q) := fun hh => hqk hh.symm
            simp [findEntry, hne]
          rw [h1, h2]
    | none => exact ⟨rfl, fun q => rfl, rfl⟩

/-- Claim C9: For every 2Q cache obtained from the public constructor and any
sequence of public operations, `Get` preserves `Len`, preserves membership
of every key in the cache proper (`recent` or `frequent`), and leaves the
ghost list untouched: a `frequent` hit only reorders, and a `recent` hit
moves the key into `frequent` without triggering `frequent`'s internal
capacity eviction, since `len(recent)+len(frequent) <= size` keeps
`frequent` strictly below its capacity before the insert. -/
theorem twoq_get_frame (size : Int) (c0 : TwoQueueCache)
    (h0 : NewTwoQueueCache size = some c0) (ops : List CacheOp) (k : Key) :
    ((run2Q c0 ops).Get k).2.Len = (run2Q c0 ops).Len ∧
    (∀ q, ((run2Q c0 ops).Get k).2.cached q = (run2Q c0 ops).cached q) ∧
    ((run2Q c0 ops).Get k).2.evict = (run2Q c0 ops).evict :=
  twoq_get_frame_core (run2Q c0 ops) k (Inv2Q_run ops c0 (Inv2Q_New size c0 h0))

/-- Witness for C9 on a size-4 2Q cache after `Put 1`, reading key 1
(a `recent` hit that promotes into `frequent`). -/
theorem twoq_get_frame_witness :
    ((run2Q (TwoQueueCache.mk 4 1 (LRU.mk 4 []) (LRU.mk 4 []) (LRU.mk 2 []))
        [CacheOp.put 1 (some 10)]).Get 1).2.Len
      = (run2Q (TwoQueueCache.mk 4 1 (LRU.mk 4 []) (LRU.mk 4 []) (LRU.mk 2 []))
        [CacheOp.put 1 (some 10)]).Len ∧
    (∀ q, ((run2Q (TwoQueueCache.mk 4 1 (LRU.mk 4 []) (LRU.mk 4 []) (LRU.mk 2 []))
        [CacheOp.put 1 (some 10)]).Get 1).2.cached q
      = (run2Q (TwoQueueCache.mk 4 1 (LRU.mk 4 []) (LRU.mk 4 []) (LRU.mk 2 []))
        [CacheOp.put 1 (some 10)]).cached q) ∧
    ((run2Q (TwoQueueCache.mk 4 1 (LRU.mk 4 []) (LRU.mk 4 []) (LRU.mk 2 []))
        [CacheOp.put 1 (some 10)]).Get 1).2.evict
      = (run2Q (TwoQueueCache.mk 4 1 (LRU.mk 4 []) (LRU.mk 4 []) (LRU.mk 2 []))
        [CacheOp.put 1 (some 10)]).evict :=
  twoq_get_frame 4 (TwoQueueCache.mk 4 1 (LRU.mk 4 []) (LRU.mk 4 []) (LRU.mk 2 []))
    (by decide) [CacheOp.put 1 (some 10)] 1

/-! ## Claim C5: ghost re-admission in the 2Q cache -/

theorem ensureSpace_facts (c : TwoQueueCache) (b : Bool) (k : Key)
    (hf : c.frequent.contains k = false) (hr : c.recent.contains k = false)
    (hnodup : keysNodup c.evict.entries) :
    (c.ensureSpace b).frequent.contains k = false ∧
    (c.ensureSpace b).recent.contains k = false ∧
    keysNodup (c.ensureSpace b).evict.entries ∧
    (c.ensureSpace b).frequent.size = c.frequent.size := by
  unfold TwoQueueCache.ensureSpace
  split_ifs with h1 h2
  · exact ⟨hf, hr, hnodup, rfl⟩
  · obtain ⟨e, he, hgro⟩ := LRU.gro_of_pos c.recent h2.1
    rw [hgro]
    exact ⟨hf, LRU.contains_dropLast_false c.recent _ k hr,
      LRU.Put_keysNodup _ _ _ hnodup, rfl⟩
  · exact ⟨LRU.contains_dropLast_false c.frequent _ k hf, hr, hnodup, rfl⟩

/-- Claim C5: When `ensureSpace` evicts a key from `recent`, that key is
recorded in `ghost` as a value-less entry (`Peek` of it yields the Go
`nil`); and a `Put` on a key currently present only in `ghost` removes it
from `ghost` and inserts it into `frequent`, never into `recent`. -/
theorem twoq_ghost_readmission (c : TwoQueueCache) (k : Key) (v : Val) :
    (∀ (b : Bool) (e : Key × Val),
      c.size ≤ c.recent.Len + c.frequent.Len → 0 < c.recent.Len →
      (c.recentSize < c.recent.Len ∨ (c.recent.Len = c.recentSize ∧ b = false)) →
      c.recent.entries.getLast? = some e → 1 ≤ c.evict.size →
      (c.ensureSpace b).evict.Peek e.1 = some none) ∧
    (c.frequent.contains k = false → c.recent.contains k = false →
      c.evict.contains k = true → keysNodup c.evict.entries → 1 ≤ c.frequent.size →
      ((c.Put k v).frequent.contains k = true ∧
       (c.Put k v).recent.contains k = false ∧
       (c.Put k v).evict.contains k = false)) := by
  constructor
  · intro b e hfull hpos hcond hlast hes
    unfold TwoQueueCache.ensureSpace
    rw [if_neg (by omega), if_pos ⟨hpos, hcond⟩]
    obtain ⟨e0, he0, hgro⟩ := LRU.gro_of_pos c.recent hpos
    rw [hgro]
    rw [hlast] at he0
    cases he0
    exact LRU.Put_peek_self c.evict e.1 none hes
  · intro hf hr he hnodup hfsize
    unfold TwoQueueCache.Put
    rw [if_neg (by simp [hf]), if_neg (by simp [hr]), if_pos he]
    obtain ⟨g1, g2, g3, g4⟩ := ensureSpace_facts c true k hf hr hnodup
    refine ⟨?_, ?_, ?_⟩
    · exact LRU.Put_contains_self _ _ _ (by omega)
    · exact g2
    · exact LRU.removeIfExist_not_contains _ _ g3

/-- Witness for C5 at a reachable size-4 state (`recent` holds keys
5,4,3,2; key 1 is a ghost entry): the `ensureSpace` eviction records its
victim value-less in `ghost`, and `Put 1` re-admits key 1 straight into
`frequent`. -/
theorem twoq_ghost_readmission_witness :
    ((TwoQueueCache.ensureSpace
        (TwoQueueCache.mk 4 1
          (LRU.mk 4 [(5, some 5), (4, some 4), (3, some 3), (2, some 2)])
          (LRU.mk 4 []) (LRU.mk 2 [(1, none)])) false).evict.Peek 2 = some none) ∧
    ((TwoQueueCache.Put
        (TwoQueueCache.mk 4 1
          (LRU.mk 4 [(5, some 5), (4, some 4), (3, some 3), (2, some 2)])
          (LRU.mk 4 []) (LRU.mk 2 [(1, none)])) 1 (some 9)).frequent.contains 1 = true ∧
     (TwoQueueCache.Put
        (TwoQueueCache.mk 4 1
          (LRU.mk 4 [(5, some 5), (4, some 4), (3, some 3), (2, some 2)])
          (LRU.mk 4 []) (LRU.mk 2 [(1, none)])) 1 (some 9)).recent.contains 1 = false ∧
     (TwoQueueCache.Put
        (TwoQueueCache.mk 4 1
          (LRU.mk 4 [(5, some 5), (4, some 4), (3, some 3), (2, some 2)])
          (LRU.mk 4 []) (LRU.mk 2 [(1, none)])) 1 (some 9)).evict.contains 1 = false) := by
  constructor
  · exact (twoq_ghost_readmission
      (TwoQueueCache.mk 4 1
        (LRU.mk 4 [(5, some 5), (4, some 4), (3, some 3), (2, some 2)])
        (LRU.mk 4 []) (LRU.mk 2 [(1, none)])) 1 (some 9)).1 false (2, some 2)
      (by decide) (by decide) (by decide) (by decide) (by decide)
  · exact (twoq_ghost_readmission
      (TwoQueueCache.mk 4 1
        (LRU.mk 4 [(5, some 5), (4, some 4), (3, some 3), (2, some 2)])
        (LRU.mk 4 []) (LRU.mk 2 [(1, none)])) 1 (some 9)).2
      (by decide) (by decide) (by decide) (by decide) (by decide)
